import Mathlib

/-!
Verification of the ARIB STD-B24 character set transcoder of TSDuck
(`tsARIBCharsetB24.h`) and of the process-exit finalizer registry
(`tsSingleton.cpp`).

Only the class declarations of the transcoder are available in the
repository fragment under study; its member-function bodies are therefore
modelled from the specification (each such definition carries a doc
comment starting with `Modelled from the spec:`).  The finalizer registry
(`ts::atexit`, `ExitContext`) is fully present in `tsSingleton.cpp` and is
embedded from that source.
-/

namespace ARIB

/-- One row of (at most) 94 Unicode code points; code point 0 marks an
unmapped cell.  Mirrors `typedef char32_t CharRow[CHAR_ROW_SIZE]`. -/
abbrev CharRow := List Nat

/-- A contiguous block of rows: `(first, rows)`.  Mirrors `struct CharRows`
(`count` is the length of `rows`). -/
structure CharRows where
  first : Nat
  rows : List CharRow

/-- A character map: 1-byte or 2-byte, made of contiguous row blocks.
Mirrors `struct CharMap`. -/
structure CharMap where
  byte2 : Bool
  rows : List CharRows

/-- Modelled from the spec: the contents of `ALPHANUMERIC_ROW` are not in
`src/` (only its declaration); §8 of the spec fixes 0x41→'A', 0x42→'B',
so the row is the ASCII printable range. -/
def ALPHANUMERIC_ROW : CharRow := (List.range 94).map (fun i => 0x21 + i)

/-- Modelled from the spec: hiragana row contents, 94 contiguous code
points of the Unicode hiragana block. -/
def HIRAGANA_ROW : CharRow := (List.range 94).map (fun i => 0x3041 + i)

/-- Modelled from the spec: katakana row contents, 94 contiguous code
points of the Unicode katakana block. -/
def KATAKANA_ROW : CharRow := (List.range 94).map (fun i => 0x30A1 + i)

/-- Modelled from the spec: JIS X0201 katakana row; the halfwidth-katakana
Unicode block has 63 characters, remaining cells are unmapped (0). -/
def JIS_X0201_KATAKANA_ROW : CharRow :=
  (List.range 94).map (fun i => if i < 63 then 0xFF61 + i else 0)

/-- Modelled from the spec: the 86 base kanji rows shared by the standard
and additional kanji maps (`KANJI_BASE_ROWS[86]`). -/
def KANJI_BASE_ROWS : List CharRow :=
  (List.range 86).map (fun r => (List.range 94).map (fun c => 0x4E00 + 94 * r + c))

/-- Modelled from the spec: the 5 rows specific to the standard kanji map
(`KANJI_STANDARD_ROWS[5]`). -/
def KANJI_STANDARD_ROWS : List CharRow :=
  (List.range 5).map (fun r => (List.range 94).map (fun c => 0x3400 + 94 * r + c))

/-- Modelled from the spec: the 5 rows specific to the additional kanji map
(`KANJI_ADDITIONAL_ROWS[5]`); these code points lie beyond the basic
multilingual plane (the spec notes some mapped values need 17 bits). -/
def KANJI_ADDITIONAL_ROWS : List CharRow :=
  (List.range 5).map (fun r => (List.range 94).map (fun c => 0x20000 + 94 * r + c))

/-- Names of the static character maps declared in the header.  Register
pointers (`const CharMap*`) are embedded as values of this type. -/
inductive CharMapId where
  | unsupported1
  | unsupported2
  | alphanumeric
  | hiragana
  | katakana
  | jisKatakana
  | kanjiStd
  | kanjiAdd
deriving DecidableEq, Repr

/-- The static map each name denotes.  The unsupported placeholders are
empty and always fail lookup; the concrete maps follow the header's
declared block structure (base rows plus a 5-row block at row 86 for the
kanji maps). -/
def mapOf : CharMapId → CharMap
  | .unsupported1 => ⟨false, []⟩
  | .unsupported2 => ⟨true, []⟩
  | .alphanumeric => ⟨false, [⟨0, [ALPHANUMERIC_ROW]⟩]⟩
  | .hiragana => ⟨false, [⟨0, [HIRAGANA_ROW]⟩]⟩
  | .katakana => ⟨false, [⟨0, [KATAKANA_ROW]⟩]⟩
  | .jisKatakana => ⟨false, [⟨0, [JIS_X0201_KATAKANA_ROW]⟩]⟩
  | .kanjiStd => ⟨true, [⟨0, KANJI_BASE_ROWS⟩, ⟨86, KANJI_STANDARD_ROWS⟩]⟩
  | .kanjiAdd => ⟨true, [⟨0, KANJI_BASE_ROWS⟩, ⟨86, KANJI_ADDITIONAL_ROWS⟩]⟩

/-- Look up row `row`, column `col` in a block list: find the block whose
row range contains `row`; a resolved code point 0 (or a row outside every
block) is a lookup failure.  Follows §4.2 step 3 of the spec. -/
def lookupBlocks (row col : Nat) : List CharRows → Option Nat
  | [] => none
  | blk :: rest =>
    if blk.first ≤ row ∧ row < blk.first + blk.rows.length then
      match blk.rows.get? (row - blk.first) with
      | some rw =>
        match rw.get? col with
        | some c => if c = 0 then none else some c
        | none => none
      | none => none
    else lookupBlocks row col rest

/-- Resolve one (row, column) pair against a named map. -/
def lookupMap (m : CharMapId) (row col : Nat) : Option Nat :=
  lookupBlocks row col (mapOf m).rows

/-- The four designatable registers G0..G3. -/
inductive GIdx where
  | g0
  | g1
  | g2
  | g3
deriving DecidableEq, Repr

/-- Register state of a decoder/encoder: the four slots hold map pointers;
`gl`, `gr` and `lockedGl` are the invocations (which slot the GL/GR ranges
currently go through).  Mirrors `_G0.._G3`, `_GL`, `_GR`, `_lockedGL`. -/
structure Registers where
  g0 : CharMapId
  g1 : CharMapId
  g2 : CharMapId
  g3 : CharMapId
  gl : GIdx
  gr : GIdx
  lockedGl : GIdx
deriving DecidableEq, Repr

/-- The map a register slot currently designates. -/
def slotMap (r : Registers) : GIdx → CharMapId
  | .g0 => r.g0
  | .g1 => r.g1
  | .g2 => r.g2
  | .g3 => r.g3

/-- Modelled from the spec: the default designations fixed at construction
(§4.2 step 1: G0 = kanji-standard, G1 = katakana, GL = G0, GR = G1). -/
def initRegs : Registers :=
  ⟨.kanjiStd, .katakana, .hiragana, .jisKatakana, .g0, .g1, .g0⟩

/-- Locking shift: persistently reassign GL (and the remembered
`lockedGl`) to the given slot. -/
def lockGL (r : Registers) (g : GIdx) : Registers :=
  { r with gl := g, lockedGl := g }

/-- Designate a map into one of the four slots. -/
def setSlot (r : Registers) (g : GIdx) (m : CharMapId) : Registers :=
  match g with
  | .g0 => { r with g0 := m }
  | .g1 => { r with g1 := m }
  | .g2 => { r with g2 := m }
  | .g3 => { r with g3 := m }

/-- Map an escape intermediate-byte offset (0..3) to a register slot. -/
def gidxOf (n : Nat) : GIdx :=
  match n with
  | 0 => .g0
  | 1 => .g1
  | 2 => .g2
  | _ => .g3

/-- Modelled from the spec: the escape final-byte lookup table for 1-byte
sets (`finalToCharMap`); recognized finals select the supported maps, one
final selects the unsupported placeholder, others are unrecognized. -/
def finalTo1 (f : Nat) : Option CharMapId :=
  if f = 0x4A then some .alphanumeric
  else if f = 0x30 then some .hiragana
  else if f = 0x31 then some .katakana
  else if f = 0x49 then some .jisKatakana
  else if f = 0x36 then some .unsupported1
  else none

/-- Modelled from the spec: the escape final-byte lookup table for 2-byte
sets. -/
def finalTo2 (f : Nat) : Option CharMapId :=
  if f = 0x42 then some .kanjiStd
  else if f = 0x39 then some .kanjiAdd
  else if f = 0x40 then some .unsupported2
  else none

/-- Modelled from the spec: the fixed byte sequences of the control bytes
mapped to macros (the macro table itself is not in `src/`); each body is a
fixed sequence of graphic bytes, decoded in the invoking state. -/
def macBody (b : Nat) : Option (List Nat) :=
  if b = 0x95 then some [0x41, 0x42]
  else if b = 0x96 then some [0xA1, 0xA2]
  else none

/-- Decoder mode: what the next input byte is interpreted as.  `normal` is
the ground state; the `esc*` modes are the stages of an escape designator
sequence; `shifted g` is the pending single shift; `second m row` waits for
the second byte of a 2-byte character; `failed` is the absorbing fatal
state. -/
inductive Mode where
  | normal
  | esc
  | esc24
  | escDes1 (g : GIdx)
  | escDes2 (g : GIdx)
  | shifted (g : GIdx)
  | second (m : CharMapId) (row : Nat)
  | failed
deriving DecidableEq, Repr

/-- Transient state of one decoding pass: register state, mode, and the
output accumulator (`_str`), to which decoded code points are appended. -/
structure DState where
  regs : Registers
  mode : Mode
  out : List Nat
deriving Repr

/-- Enter the absorbing fatal state; the accumulated output is kept. -/
def dfail (s : DState) : DState := { s with mode := .failed }

/-- Column (or row) index selected by a graphic byte: low 7 bits, offset
from the GL base 0x21 (§4.2 step 3). -/
def colOf (b : Nat) : Nat := b % 128 - 0x21

/-- A byte in the GL or GR graphic ranges. -/
def isGraphic (b : Nat) : Prop :=
  (0x21 ≤ b ∧ b ≤ 0x7E) ∨ (0xA1 ≤ b ∧ b ≤ 0xFE)

instance (b : Nat) : Decidable (isGraphic b) := by
  unfold isGraphic
  infer_instance

/-- Classification of a byte seen in `normal` mode. -/
inductive ByteClass where
  | esc
  | ls0
  | ls1
  | ss2
  | ss3
  | gl
  | gr
  | mac (body : List Nat)
  | bad
deriving Repr

/-- Modelled from the spec: decide what a byte means in the ground state
(§4.2 step 2: ESC, bare locking shifts LS0/LS1, single shifts SS2/SS3, GL
and GR graphic ranges, control bytes mapped to macros; any other byte is a
fatal condition, per the spec's note to fail rather than guess). -/
def classifyByte (b : Nat) : ByteClass :=
  if b = 0x1B then .esc
  else if b = 0x0F then .ls0
  else if b = 0x0E then .ls1
  else if b = 0x19 then .ss2
  else if b = 0x1D then .ss3
  else if 0x21 ≤ b ∧ b ≤ 0x7E then .gl
  else if 0xA1 ≤ b ∧ b ≤ 0xFE then .gr
  else
    match macBody b with
    | some body => .mac body
    | none => .bad

/-- Decode one graphic byte through map `m` (`decodeOneChar`): a 1-byte map
resolves row 0 immediately; a 2-byte map remembers the row and waits for
the second byte. -/
def decodeGlyph (s : DState) (m : CharMapId) (b : Nat) : DState :=
  if (mapOf m).byte2 then
    { s with mode := .second m (colOf b) }
  else
    match lookupMap m 0 (colOf b) with
    | some c => { s with mode := .normal, out := s.out ++ [c] }
    | none => dfail s

/-- Modelled from the spec: one step of the decoding loop, parametrized by
the handler for macro control bytes (nested decoding is one level deep:
the fixed macro bodies contain no macro bytes). -/
def stepCore (mac : DState → List Nat → DState) (s : DState) (b : Nat) : DState :=
  match s.mode with
  | .failed => s
  | .normal =>
    match classifyByte b with
    | .esc => { s with mode := .esc }
    | .ls0 => { s with regs := lockGL s.regs .g0 }
    | .ls1 => { s with regs := lockGL s.regs .g1 }
    | .ss2 => { s with mode := .shifted .g2 }
    | .ss3 => { s with mode := .shifted .g3 }
    | .gl => decodeGlyph s (slotMap s.regs s.regs.gl) b
    | .gr => decodeGlyph s (slotMap s.regs s.regs.gr) b
    | .mac body => mac s body
    | .bad => dfail s
  | .esc =>
    if b = 0x24 then { s with mode := .esc24 }
    else if 0x28 ≤ b ∧ b ≤ 0x2B then { s with mode := .escDes1 (gidxOf (b - 0x28)) }
    else if b = 0x6E then { s with regs := lockGL s.regs .g2, mode := .normal }
    else if b = 0x6F then { s with regs := lockGL s.regs .g3, mode := .normal }
    else dfail s
  | .esc24 =>
    if 0x29 ≤ b ∧ b ≤ 0x2B then { s with mode := .escDes2 (gidxOf (b - 0x28)) }
    else
      match finalTo2 b with
      | some m => { s with regs := setSlot s.regs .g0 m, mode := .normal }
      | none => dfail s
  | .escDes1 g =>
    match finalTo1 b with
    | some m => { s with regs := setSlot s.regs g m, mode := .normal }
    | none => dfail s
  | .escDes2 g =>
    match finalTo2 b with
    | some m => { s with regs := setSlot s.regs g m, mode := .normal }
    | none => dfail s
  | .shifted g =>
    if isGraphic b then decodeGlyph s (slotMap s.regs g) b else dfail s
  | .second m row =>
    if isGraphic b then
      match lookupMap m row (colOf b) with
      | some c => { s with mode := .normal, out := s.out ++ [c] }
      | none => dfail s
    else dfail s

/-- Step of a nested (macro-body) decoder: macro bytes are not expanded a
second level. -/
def stepNM : DState → Nat → DState :=
  stepCore (fun s _ => dfail s)

/-- Nested decoding for a macro body: a child decoder borrows the parent's
current registers and appends to the same output; its register changes do
not flow back, and its failure (including a body ending mid-sequence)
fails the enclosing decode. -/
def runMac (s : DState) (body : List Nat) : DState :=
  let inner := List.foldl stepNM s body
  if inner.mode = Mode.normal then { s with out := inner.out }
  else { s with out := inner.out, mode := .failed }

/-- One step of the top-level decoding loop. -/
def step : DState → Nat → DState :=
  stepCore runMac

/-- Run a full decode from register state `r`, appending to accumulator
`acc`: success iff the whole buffer is consumed with no pending
unresolved sequence and no fatal error (§4.2 step 4). -/
def decodeOn (r : Registers) (acc : List Nat) (data : List Nat) : List Nat × Bool :=
  let s := List.foldl step ⟨r, .normal, acc⟩ data
  (s.out, decide (s.mode = Mode.normal))

/-- Modelled from the spec: `ARIBCharsetB24::decode(str, data, size)` —
construct a decoder with the default register state, run it over the
buffer, appending decoded code points to `str` (the output is modelled at
the code-point level; the container's surrogate-pair encoding is a
representation detail). -/
def decode (str : List Nat) (data : List Nat) : List Nat × Bool :=
  decodeOn initRegs str data

/-- First index of `c` in a row, if any. -/
def findIdxIn (c : Nat) : List Nat → Option Nat
  | [] => none
  | x :: xs => if x = c then some 0 else (findIdxIn c xs).map (· + 1)

/-- Search a block's rows for code point `c`, returning (row, column). -/
def findInRows (c : Nat) (first : Nat) : List CharRow → Option (Nat × Nat)
  | [] => none
  | rw :: rest =>
    match findIdxIn c rw with
    | some col => some (first, col)
    | none => findInRows c (first + 1) rest

/-- Search a list of blocks for code point `c`. -/
def findInBlocks (c : Nat) : List CharRows → Option (Nat × Nat)
  | [] => none
  | blk :: rest =>
    match findInRows c blk.first blk.rows with
    | some rc => some rc
    | none => findInBlocks c rest

/-- Search one named map for code point `c`. -/
def findInMap (m : CharMapId) (c : Nat) : Option (Nat × Nat) :=
  findInBlocks c (mapOf m).rows

/-- Search a priority list of maps for the first one containing `c`. -/
def searchIds (c : Nat) : List CharMapId → Option (CharMapId × Nat × Nat)
  | [] => none
  | m :: rest =>
    match findInMap m c with
    | some rc => some (m, rc.1, rc.2)
    | none => searchIds c rest

/-- Modelled from the spec: the fixed priority order of the table search
(§4.3: alphanumeric before kanji before the unsupported placeholders). -/
def searchOrder : List CharMapId :=
  [.alphanumeric, .hiragana, .katakana, .jisKatakana, .kanjiStd, .kanjiAdd,
   .unsupported1, .unsupported2]

/-- Modelled from the spec: find the map / row / column encoding a Unicode
code point, if any (code point 0 is never encodable: it marks unmapped
cells). -/
def findChar (c : Nat) : Option (CharMapId × Nat × Nat) :=
  if c = 0 then none else searchIds c searchOrder

/-- Maps the encoder may emit designations for. -/
def supported : CharMapId → Bool
  | .unsupported1 => false
  | .unsupported2 => false
  | _ => true

/-- The escape final byte the encoder emits to designate a map. -/
def finalOf : CharMapId → Nat
  | .alphanumeric => 0x4A
  | .hiragana => 0x30
  | .katakana => 0x31
  | .jisKatakana => 0x49
  | .kanjiStd => 0x42
  | .kanjiAdd => 0x39
  | .unsupported1 => 0x36
  | .unsupported2 => 0x40

/-- Modelled from the spec: the escape/shift bytes the encoder emits so
that the GL invocation resolves through map `m` (§4.3: a designation of
`m` into G0 when G0 does not already hold it, then a locking shift LS0
when GL is not locked on G0). -/
def switchSeq (r : Registers) (m : CharMapId) : List Nat :=
  (if r.g0 = m then []
   else [0x1B, if (mapOf m).byte2 then 0x24 else 0x28, finalOf m]) ++
  (if r.gl = GIdx.g0 then [] else [0x0F])

/-- The register state after the decoder consumes `switchSeq r m`. -/
def switchState (r : Registers) (m : CharMapId) : Registers :=
  { r with g0 := m, gl := .g0,
           lockedGl := if r.gl = GIdx.g0 then r.lockedGl else GIdx.g0 }

/-- The 1 or 2 character bytes of a code point located at (row, col). -/
def charBytes (byte2 : Bool) (row col : Nat) : List Nat :=
  if byte2 then [0x21 + row, 0x21 + col] else [0x21 + col]

/-- Modelled from the spec: the encoding loop (§4.3) — for each character
find its map, emit the minimal switch bytes plus the character bytes if
they fit the remaining buffer space, and stop at the first unencodable
character or when the buffer fills.  Returns the emitted bytes and how
many input characters were consumed. -/
def encodeLoop (r : Registers) (budget : Nat) : List Nat → List Nat × Nat
  | [] => ([], 0)
  | c :: rest =>
    match findChar c with
    | none => ([], 0)
    | some (m, row, col) =>
      let grp := switchSeq r m ++ charBytes (mapOf m).byte2 row col
      if grp.length ≤ budget then
        let res := encodeLoop (switchState r m) (budget - grp.length) rest
        (grp ++ res.1, res.2 + 1)
      else ([], 0)

/-- Modelled from the spec: the representability walk behind `canEncode` —
check each character of the text against the table registry, tracking the
register state the encoder would be in. -/
def canEncodeFrom (r : Registers) : List Nat → Bool
  | [] => true
  | c :: rest =>
    match findChar c with
    | none => false
    | some (m, _, _) => canEncodeFrom (switchState r m) rest

/-- The subrange (start, count) of a text. -/
def subrange (str : List Nat) (start count : Nat) : List Nat :=
  (str.drop start).take count

/-- Modelled from the spec: `ARIBCharsetB24::canEncode(str, start, count)`
— pure query: whether the subrange is fully representable given the
initial default register state. -/
def canEncode (str : List Nat) (start count : Nat) : Bool :=
  canEncodeFrom initRegs (subrange str start count)

/-- Modelled from the spec: `ARIBCharsetB24::encode(buffer, size, str,
start, count)` — write as many characters of the subrange as fit into a
buffer of `size` remaining bytes; returns the bytes written (the buffer
pointer advance) and the count of characters consumed. -/
def encode (size : Nat) (str : List Nat) (start count : Nat) : List Nat × Nat :=
  encodeLoop initRegs size (subrange str start count)

/-! Basic properties of the decoding automaton. -/

/-- The fatal state is absorbing for a single step. -/
theorem stepCore_failed (mac : DState → List Nat → DState) (s : DState) (b : Nat)
    (h : s.mode = Mode.failed) : stepCore mac s b = s := by
  unfold stepCore
  rw [h]

/-- The fatal state is absorbing for a whole run. -/
theorem foldl_stepCore_failed (mac : DState → List Nat → DState) :
    ∀ (bs : List Nat) (s : DState), s.mode = Mode.failed →
      List.foldl (stepCore mac) s bs = s := by
  intro bs
  induction bs with
  | nil => intro s _; rfl
  | cons b rest ih =>
    intro s h
    simp only [List.foldl_cons, stepCore_failed mac s b h]
    exact ih s h

/-- Two decoder states that agree on registers and mode (their outputs may
differ). -/
def sim (s t : DState) : Prop := s.regs = t.regs ∧ s.mode = t.mode

theorem dfail_sim {s t : DState} (h : sim s t) : sim (dfail s) (dfail t) :=
  ⟨h.1, rfl⟩

theorem decodeGlyph_sim {s t : DState} (m : CharMapId) (b : Nat) (h : sim s t) :
    sim (decodeGlyph s m b) (decodeGlyph t m b) := by
  unfold decodeGlyph
  by_cases hb : (mapOf m).byte2
  · simp only [hb, if_true]
    exact ⟨h.1, rfl⟩
  · simp only [hb, if_false]
    cases hl : lookupMap m 0 (colOf b)
    · exact dfail_sim h
    · exact ⟨h.1, rfl⟩

/-- Register and mode evolution does not depend on the accumulated
output (destructured form). -/
theorem stepCore_sim_mk (mac1 mac2 : DState → List Nat → DState)
    (hmac : ∀ s t body, sim s t → sim (mac1 s body) (mac2 t body))
    (r : Registers) (m : Mode) (o1 o2 : List Nat) (b : Nat) :
    sim (stepCore mac1 ⟨r, m, o1⟩ b) (stepCore mac2 ⟨r, m, o2⟩ b) := by
  cases m <;> dsimp only [stepCore]
  case failed => exact ⟨rfl, rfl⟩
  case normal =>
    cases hc : classifyByte b
    case esc => exact ⟨rfl, rfl⟩
    case ls0 => exact ⟨rfl, rfl⟩
    case ls1 => exact ⟨rfl, rfl⟩
    case ss2 => exact ⟨rfl, rfl⟩
    case ss3 => exact ⟨rfl, rfl⟩
    case gl => exact decodeGlyph_sim _ _ ⟨rfl, rfl⟩
    case gr => exact decodeGlyph_sim _ _ ⟨rfl, rfl⟩
    case mac body => exact hmac _ _ body ⟨rfl, rfl⟩
    case bad => exact ⟨rfl, rfl⟩
  case esc =>
    split_ifs <;> exact ⟨rfl, rfl⟩
  case esc24 =>
    split_ifs
    · exact ⟨rfl, rfl⟩
    · cases hf : finalTo2 b <;> exact ⟨rfl, rfl⟩
  case escDes1 g =>
    cases hf : finalTo1 b <;> exact ⟨rfl, rfl⟩
  case escDes2 g =>
    cases hf : finalTo2 b <;> exact ⟨rfl, rfl⟩
  case shifted g =>
    split_ifs
    · exact decodeGlyph_sim _ _ ⟨rfl, rfl⟩
    · exact ⟨rfl, rfl⟩
  case second mm row =>
    split_ifs
    · cases hl : lookupMap mm row (colOf b) <;> exact ⟨rfl, rfl⟩
    · exact ⟨rfl, rfl⟩

/-- Register and mode evolution does not depend on the accumulated
output. -/
theorem stepCore_sim (mac1 mac2 : DState → List Nat → DState)
    (hmac : ∀ s t body, sim s t → sim (mac1 s body) (mac2 t body)) :
    ∀ (s t : DState) (b : Nat), sim s t →
      sim (stepCore mac1 s b) (stepCore mac2 t b) := by
  rintro ⟨rs, ms, os⟩ ⟨rt, mt, ot⟩ b ⟨h1, h2⟩
  dsimp only at h1 h2
  subst h1
  subst h2
  exact stepCore_sim_mk mac1 mac2 hmac _ _ _ _ b

theorem stepNM_sim {s t : DState} (b : Nat) (h : sim s t) :
    sim (stepNM s b) (stepNM t b) :=
  stepCore_sim _ _ (fun _ _ _ hh => dfail_sim hh) s t b h

theorem foldl_stepNM_sim :
    ∀ (bs : List Nat) {s t : DState}, sim s t →
      sim (List.foldl stepNM s bs) (List.foldl stepNM t bs) := by
  intro bs
  induction bs with
  | nil => intro s t h; exact h
  | cons b rest ih => intro s t h; exact ih (stepNM_sim b h)

theorem runMac_sim {s t : DState} (body : List Nat) (h : sim s t) :
    sim (runMac s body) (runMac t body) := by
  unfold runMac
  have hin := foldl_stepNM_sim body h
  by_cases hm : (List.foldl stepNM s body).mode = Mode.normal
  · rw [if_pos hm, if_pos (hin.2 ▸ hm)]
    exact ⟨h.1, h.2⟩
  · rw [if_neg hm, if_neg (fun hh => hm (hin.2 ▸ hh))]
    exact ⟨h.1, rfl⟩

theorem step_sim {s t : DState} (b : Nat) (h : sim s t) :
    sim (step s b) (step t b) :=
  stepCore_sim _ _ (fun _ _ body hh => runMac_sim body hh) s t b h

theorem foldl_step_sim :
    ∀ (bs : List Nat) {s t : DState}, sim s t →
      sim (List.foldl step s bs) (List.foldl step t bs) := by
  intro bs
  induction bs with
  | nil => intro s t h; exact h
  | cons b rest ih => intro s t h; exact ih (step_sim b h)

/-- Resolving one glyph only appends to the output. -/
theorem decodeGlyph_appends (s : DState) (m : CharMapId) (b : Nat) :
    ∃ t2, (decodeGlyph s m b).out = s.out ++ t2 := by
  unfold decodeGlyph
  split_ifs
  · exact ⟨[], by simp⟩
  · cases hl : lookupMap m 0 (colOf b)
    · exact ⟨[], by simp [dfail]⟩
    · exact ⟨_, rfl⟩

/-- A single step only appends to the output (destructured form). -/
theorem stepCore_appends_mk (mac : DState → List Nat → DState)
    (hmac : ∀ s body, ∃ t2, (mac s body).out = s.out ++ t2)
    (r : Registers) (m : Mode) (o : List Nat) (b : Nat) :
    ∃ t2, (stepCore mac ⟨r, m, o⟩ b).out = o ++ t2 := by
  cases m <;> dsimp only [stepCore]
  case failed => exact ⟨[], by simp⟩
  case normal =>
    cases hc : classifyByte b
    case gl => exact decodeGlyph_appends _ _ _
    case gr => exact decodeGlyph_appends _ _ _
    case mac body => exact hmac _ body
    all_goals exact ⟨[], by simp [dfail]⟩
  case esc =>
    split_ifs <;> exact ⟨[], by simp [dfail]⟩
  case esc24 =>
    split_ifs
    · exact ⟨[], by simp⟩
    · cases hf : finalTo2 b
      · exact ⟨[], by simp [dfail]⟩
      · exact ⟨[], by simp⟩
  case escDes1 g =>
    cases hf : finalTo1 b
    · exact ⟨[], by simp [dfail]⟩
    · exact ⟨[], by simp⟩
  case escDes2 g =>
    cases hf : finalTo2 b
    · exact ⟨[], by simp [dfail]⟩
    · exact ⟨[], by simp⟩
  case shifted g =>
    split_ifs
    · exact decodeGlyph_appends _ _ _
    · exact ⟨[], by simp [dfail]⟩
  case second mm row =>
    split_ifs
    · cases hl : lookupMap mm row (colOf b)
      · exact ⟨[], by simp [dfail]⟩
      · exact ⟨_, rfl⟩
    · exact ⟨[], by simp [dfail]⟩

/-- A single step only appends to the output. -/
theorem stepCore_appends (mac : DState → List Nat → DState)
    (hmac : ∀ s body, ∃ t2, (mac s body).out = s.out ++ t2) :
    ∀ (s : DState) (b : Nat), ∃ t2, (stepCore mac s b).out = s.out ++ t2 := by
  rintro ⟨r, m, o⟩ b
  exact stepCore_appends_mk mac hmac r m o b

theorem foldl_appends {f : DState → Nat → DState}
    (hf : ∀ s b, ∃ t2, (f s b).out = s.out ++ t2) :
    ∀ (bs : List Nat) (s : DState), ∃ t2, (List.foldl f s bs).out = s.out ++ t2 := by
  intro bs
  induction bs with
  | nil => intro s; exact ⟨[], by simp⟩
  | cons b rest ih =>
    intro s
    obtain ⟨t1, h1⟩ := hf s b
    obtain ⟨t2, h2⟩ := ih (f s b)
    exact ⟨t1 ++ t2, by simp [List.foldl_cons, h2, h1]⟩

theorem stepNM_appends (s : DState) (b : Nat) :
    ∃ t2, (stepNM s b).out = s.out ++ t2 :=
  stepCore_appends _ (fun s _ => ⟨[], by simp [dfail]⟩) s b

theorem runMac_appends (s : DState) (body : List Nat) :
    ∃ t2, (runMac s body).out = s.out ++ t2 := by
  obtain ⟨t2, h2⟩ := foldl_appends stepNM_appends body s
  simp only [runMac]
  split_ifs with h
  · exact ⟨t2, h2⟩
  · exact ⟨t2, h2⟩

theorem step_appends (s : DState) (b : Nat) :
    ∃ t2, (step s b).out = s.out ++ t2 :=
  stepCore_appends _ runMac_appends s b

theorem foldl_step_appends (bs : List Nat) (s : DState) :
    ∃ t2, (List.foldl step s bs).out = s.out ++ t2 :=
  foldl_appends step_appends bs s

/-! Forward-execution lemmas: how the automaton consumes specific byte
shapes from the ground state. -/

theorem classify_gl {b : Nat} (h1 : 0x21 ≤ b) (h2 : b ≤ 0x7E) :
    classifyByte b = ByteClass.gl := by
  unfold classifyByte
  split_ifs <;> first | rfl | (exfalso; omega)

theorem classify_gr {b : Nat} (h1 : 0xA1 ≤ b) (h2 : b ≤ 0xFE) :
    classifyByte b = ByteClass.gr := by
  unfold classifyByte
  split_ifs <;> first | rfl | (exfalso; omega)

theorem macBody_cases {b : Nat} {body : List Nat} (h : macBody b = some body) :
    (b = 0x95 ∧ body = [0x41, 0x42]) ∨ (b = 0x96 ∧ body = [0xA1, 0xA2]) := by
  unfold macBody at h
  split_ifs at h with h1 h2
  · exact Or.inl ⟨h1, by injection h with h; exact h.symm⟩
  · exact Or.inr ⟨h2, by injection h with h; exact h.symm⟩

theorem classify_mac {b : Nat} {body : List Nat} (h : macBody b = some body) :
    classifyByte b = ByteClass.mac body := by
  rcases macBody_cases h with ⟨hb, hbody⟩ | ⟨hb, hbody⟩ <;> subst hb <;> subst hbody <;> rfl

/-- A GL-range byte through a 1-byte map resolves in one step (any macro
handler). -/
theorem stepCore_gl1 (mac : DState → List Nat → DState)
    {r : Registers} {o : List Nat} {b : Nat} {m : CharMapId} {c : Nat}
    (h1 : 0x21 ≤ b) (h2 : b ≤ 0x7E)
    (hm : slotMap r r.gl = m) (hb2 : (mapOf m).byte2 = false)
    (hc : lookupMap m 0 (colOf b) = some c) :
    stepCore mac ⟨r, Mode.normal, o⟩ b = ⟨r, Mode.normal, o ++ [c]⟩ := by
  dsimp only [stepCore]
  rw [classify_gl h1 h2]
  dsimp only [decodeGlyph]
  rw [hm, hb2]
  simp only [Bool.false_eq_true, if_false, hc]

/-- A GL-range byte through a 1-byte map with no mapped code point is
fatal. -/
theorem stepCore_gl1_fail (mac : DState → List Nat → DState)
    {r : Registers} {o : List Nat} {b : Nat} {m : CharMapId}
    (h1 : 0x21 ≤ b) (h2 : b ≤ 0x7E)
    (hm : slotMap r r.gl = m) (hb2 : (mapOf m).byte2 = false)
    (hc : lookupMap m 0 (colOf b) = none) :
    stepCore mac ⟨r, Mode.normal, o⟩ b = ⟨r, Mode.failed, o⟩ := by
  dsimp only [stepCore]
  rw [classify_gl h1 h2]
  dsimp only [decodeGlyph]
  rw [hm, hb2]
  simp only [Bool.false_eq_true, if_false, hc]
  rfl

/-- A GL-range byte through a 2-byte map records the row and waits (any
macro handler). -/
theorem stepCore_gl2 (mac : DState → List Nat → DState)
    {r : Registers} {o : List Nat} {b : Nat} {m : CharMapId}
    (h1 : 0x21 ≤ b) (h2 : b ≤ 0x7E)
    (hm : slotMap r r.gl = m) (hb2 : (mapOf m).byte2 = true) :
    stepCore mac ⟨r, Mode.normal, o⟩ b = ⟨r, Mode.second m (colOf b), o⟩ := by
  dsimp only [stepCore]
  rw [classify_gl h1 h2]
  dsimp only [decodeGlyph]
  rw [hm, hb2]
  simp only [if_true]

/-- A GR-range byte through a 1-byte map resolves in one step. -/
theorem stepCore_gr1 (mac : DState → List Nat → DState)
    {r : Registers} {o : List Nat} {b : Nat} {m : CharMapId} {c : Nat}
    (h1 : 0xA1 ≤ b) (h2 : b ≤ 0xFE)
    (hm : slotMap r r.gr = m) (hb2 : (mapOf m).byte2 = false)
    (hc : lookupMap m 0 (colOf b) = some c) :
    stepCore mac ⟨r, Mode.normal, o⟩ b = ⟨r, Mode.normal, o ++ [c]⟩ := by
  dsimp only [stepCore]
  rw [classify_gr h1 h2]
  dsimp only [decodeGlyph]
  rw [hm, hb2]
  simp only [Bool.false_eq_true, if_false, hc]

/-- A GR-range byte through a 1-byte map with no mapped code point is
fatal. -/
theorem stepCore_gr1_fail (mac : DState → List Nat → DState)
    {r : Registers} {o : List Nat} {b : Nat} {m : CharMapId}
    (h1 : 0xA1 ≤ b) (h2 : b ≤ 0xFE)
    (hm : slotMap r r.gr = m) (hb2 : (mapOf m).byte2 = false)
    (hc : lookupMap m 0 (colOf b) = none) :
    stepCore mac ⟨r, Mode.normal, o⟩ b = ⟨r, Mode.failed, o⟩ := by
  dsimp only [stepCore]
  rw [classify_gr h1 h2]
  dsimp only [decodeGlyph]
  rw [hm, hb2]
  simp only [Bool.false_eq_true, if_false, hc]
  rfl

/-- A GR-range byte through a 2-byte map records the row and waits. -/
theorem stepCore_gr2 (mac : DState → List Nat → DState)
    {r : Registers} {o : List Nat} {b : Nat} {m : CharMapId}
    (h1 : 0xA1 ≤ b) (h2 : b ≤ 0xFE)
    (hm : slotMap r r.gr = m) (hb2 : (mapOf m).byte2 = true) :
    stepCore mac ⟨r, Mode.normal, o⟩ b = ⟨r, Mode.second m (colOf b), o⟩ := by
  dsimp only [stepCore]
  rw [classify_gr h1 h2]
  dsimp only [decodeGlyph]
  rw [hm, hb2]
  simp only [if_true]

/-- The second byte of a 2-byte character resolves the pending glyph (any
macro handler). -/
theorem stepCore_second (mac : DState → List Nat → DState)
    {r : Registers} {o : List Nat} {b row : Nat} {m : CharMapId} {c : Nat}
    (hg : isGraphic b) (hc : lookupMap m row (colOf b) = some c) :
    stepCore mac ⟨r, Mode.second m row, o⟩ b = ⟨r, Mode.normal, o ++ [c]⟩ := by
  dsimp only [stepCore]
  rw [if_pos hg, hc]

/-- The second byte of a 2-byte character with no mapped code point is
fatal. -/
theorem stepCore_second_fail (mac : DState → List Nat → DState)
    {r : Registers} {o : List Nat} {b row : Nat} {m : CharMapId}
    (hg : isGraphic b) (hc : lookupMap m row (colOf b) = none) :
    stepCore mac ⟨r, Mode.second m row, o⟩ b = ⟨r, Mode.failed, o⟩ := by
  dsimp only [stepCore]
  rw [if_pos hg, hc]
  rfl

/-- A single-shifted graphic byte through a 1-byte map resolves in one
step and the shift expires. -/
theorem stepCore_shifted1 (mac : DState → List Nat → DState)
    {r : Registers} {o : List Nat} {b : Nat} {g : GIdx} {m : CharMapId} {c : Nat}
    (hg : isGraphic b) (hm : slotMap r g = m) (hb2 : (mapOf m).byte2 = false)
    (hc : lookupMap m 0 (colOf b) = some c) :
    stepCore mac ⟨r, Mode.shifted g, o⟩ b = ⟨r, Mode.normal, o ++ [c]⟩ := by
  dsimp only [stepCore]
  rw [if_pos hg]
  dsimp only [decodeGlyph]
  rw [hm, hb2]
  simp only [Bool.false_eq_true, if_false, hc]

theorem step_gl1 {r : Registers} {o : List Nat} {b : Nat} {m : CharMapId} {c : Nat}
    (h1 : 0x21 ≤ b) (h2 : b ≤ 0x7E)
    (hm : slotMap r r.gl = m) (hb2 : (mapOf m).byte2 = false)
    (hc : lookupMap m 0 (colOf b) = some c) :
    step ⟨r, Mode.normal, o⟩ b = ⟨r, Mode.normal, o ++ [c]⟩ :=
  stepCore_gl1 runMac h1 h2 hm hb2 hc

theorem step_gl2 {r : Registers} {o : List Nat} {b : Nat} {m : CharMapId}
    (h1 : 0x21 ≤ b) (h2 : b ≤ 0x7E)
    (hm : slotMap r r.gl = m) (hb2 : (mapOf m).byte2 = true) :
    step ⟨r, Mode.normal, o⟩ b = ⟨r, Mode.second m (colOf b), o⟩ :=
  stepCore_gl2 runMac h1 h2 hm hb2

theorem step_second {r : Registers} {o : List Nat} {b row : Nat} {m : CharMapId} {c : Nat}
    (hg : isGraphic b) (hc : lookupMap m row (colOf b) = some c) :
    step ⟨r, Mode.second m row, o⟩ b = ⟨r, Mode.normal, o ++ [c]⟩ :=
  stepCore_second runMac hg hc

/-- Steps with different macro handlers agree on bytes that are not macro
control bytes. -/
theorem stepCore_eq_nonmac (mac1 mac2 : DState → List Nat → DState)
    {b : Nat} (hb : ∀ body, classifyByte b ≠ ByteClass.mac body) :
    ∀ s : DState, stepCore mac1 s b = stepCore mac2 s b := by
  rintro ⟨r, m, o⟩
  cases m <;> try rfl
  dsimp only [stepCore]
  cases hc : classifyByte b <;> first | rfl | exact absurd hc (hb _)

/-- Graphic-range bytes are never macro control bytes. -/
theorem classify_graphic_ne_mac {b : Nat} (hg : isGraphic b) :
    ∀ body, classifyByte b ≠ ByteClass.mac body := by
  intro body h
  rcases hg with ⟨h1, h2⟩ | ⟨h1, h2⟩
  · rw [classify_gl h1 h2] at h
    exact absurd h (by simp)
  · rw [classify_gr h1 h2] at h
    exact absurd h (by simp)

/-- A macro control byte in the ground state invokes the nested decoder. -/
theorem step_mac {r : Registers} {o : List Nat} {b : Nat} {body : List Nat}
    (h : macBody b = some body) :
    step ⟨r, Mode.normal, o⟩ b = runMac ⟨r, Mode.normal, o⟩ body := by
  show stepCore runMac _ _ = _
  dsimp only [stepCore]
  rw [classify_mac h]

/-- Decoding an emitted designation sequence designates the map into G0
and returns to the ground state. -/
theorem fold_desSeq (r : Registers) (o : List Nat) (m : CharMapId) :
    List.foldl step ⟨r, Mode.normal, o⟩
      [0x1B, if (mapOf m).byte2 then 0x24 else 0x28, finalOf m] =
      ⟨setSlot r .g0 m, Mode.normal, o⟩ := by
  cases m <;> rfl

/-- Decoding a bare LS0 byte locks GL on G0. -/
theorem step_ls0 (r : Registers) (o : List Nat) :
    step ⟨r, Mode.normal, o⟩ 0x0F = ⟨lockGL r .g0, Mode.normal, o⟩ := rfl

/-- Decoding the encoder's switch bytes puts the decoder exactly in the
encoder's predicted register state, with no output. -/
theorem fold_switchSeq (r : Registers) (o : List Nat) (m : CharMapId) :
    List.foldl step ⟨r, Mode.normal, o⟩ (switchSeq r m) =
      ⟨switchState r m, Mode.normal, o⟩ := by
  unfold switchSeq switchState
  by_cases h0 : r.g0 = m
  · by_cases hgl : r.gl = GIdx.g0
    · simp only [h0, if_pos rfl, hgl, List.nil_append, List.foldl_nil]
      cases r
      simp_all
    · rw [if_pos h0, if_neg hgl, if_neg hgl]
      simp only [List.nil_append, List.foldl_cons, List.foldl_nil, step_ls0]
      cases r
      simp_all [lockGL]
  · by_cases hgl : r.gl = GIdx.g0
    · rw [if_neg h0, if_pos hgl, if_pos hgl, List.append_nil]
      rw [fold_desSeq r o m]
      cases r
      simp_all [setSlot]
    · rw [if_neg h0, if_neg hgl, if_neg hgl]
      rw [List.foldl_append, fold_desSeq r o m]
      simp only [List.foldl_cons, List.foldl_nil, step_ls0]
      cases r
      simp_all [lockGL, setSlot]

/-! Correctness of the encoder's table search with respect to the
decoder's lookup. -/

theorem findIdxIn_get {c : Nat} : ∀ {l : List Nat} {i : Nat},
    findIdxIn c l = some i → l.get? i = some c := by
  intro l
  induction l with
  | nil => intro i h; exact absurd h (by simp [findIdxIn])
  | cons x xs ih =>
    intro i h
    unfold findIdxIn at h
    split_ifs at h with hx
    · injection h with h
      subst h
      simp [hx]
    · cases hi : findIdxIn c xs
      · rw [hi] at h; exact absurd h (by simp)
      · rw [hi] at h
        injection h with h
        subst h
        simpa using ih hi

theorem findIdxIn_lt {c : Nat} : ∀ {l : List Nat} {i : Nat},
    findIdxIn c l = some i → i < l.length := by
  intro l i h
  obtain ⟨hlt, _⟩ := List.get?_eq_some.mp (findIdxIn_get h)
  exact hlt

theorem findInRows_spec {c : Nat} : ∀ {rows : List CharRow} {first row col : Nat},
    findInRows c first rows = some (row, col) →
      first ≤ row ∧ row - first < rows.length ∧
      ∃ rw, rows.get? (row - first) = some rw ∧ findIdxIn c rw = some col := by
  intro rows
  induction rows with
  | nil => intro first row col h; exact absurd h (by simp [findInRows])
  | cons rw rest ih =>
    intro first row col h
    unfold findInRows at h
    cases hi : findIdxIn c rw with
    | none =>
      rw [hi] at h
      obtain ⟨h1, h2, rw2, h3, h4⟩ := ih h
      refine ⟨by omega, by simp; omega, rw2, ?_, h4⟩
      rw [show row - first = (row - (first + 1)) + 1 by omega]
      simpa using h3
    | some colv =>
      rw [hi] at h
      injection h with h
      rw [Prod.mk.injEq] at h
      obtain ⟨hf, hv⟩ := h
      subst hf
      subst hv
      exact ⟨le_refl _, by simp, rw, by simp, hi⟩

theorem findInBlocks_spec {c : Nat} : ∀ {blocks : List CharRows} {row col : Nat},
    findInBlocks c blocks = some (row, col) →
      ∃ blk ∈ blocks, blk.first ≤ row ∧ row - blk.first < blk.rows.length ∧
        ∃ rw, blk.rows.get? (row - blk.first) = some rw ∧ findIdxIn c rw = some col := by
  intro blocks
  induction blocks with
  | nil => intro row col h; exact absurd h (by simp [findInBlocks])
  | cons blk rest ih =>
    intro row col h
    unfold findInBlocks at h
    cases hf : findInRows c blk.first blk.rows
    · rw [hf] at h
      obtain ⟨blk2, hmem, hrest⟩ := ih h
      exact ⟨blk2, List.mem_cons_of_mem _ hmem, hrest⟩
    · rw [hf] at h
      injection h with h
      subst h
      obtain ⟨h1, h2, rw, h3, h4⟩ := findInRows_spec hf
      exact ⟨blk, List.mem_cons_self _ _, h1, h2, rw, h3, h4⟩

/-- Blocks are listed in increasing, non-overlapping row order. -/
def blocksOrdered : List CharRows → Prop
  | [] => True
  | [_] => True
  | b1 :: b2 :: rest => b1.first + b1.rows.length ≤ b2.first ∧ blocksOrdered (b2 :: rest)

theorem blocksOrdered_tail {blk : CharRows} {rest : List CharRows}
    (h : blocksOrdered (blk :: rest)) : blocksOrdered rest := by
  cases rest with
  | nil => trivial
  | cons b2 rest2 => exact h.2

theorem ordered_lb {blk : CharRows} : ∀ {rest : List CharRows},
    blocksOrdered (blk :: rest) → ∀ b2 ∈ rest, blk.first + blk.rows.length ≤ b2.first := by
  intro rest
  induction rest with
  | nil => intro _ b2 h2; exact absurd h2 (by simp)
  | cons b2 rest2 ih =>
    intro h b3 h3
    rcases List.mem_cons.mp h3 with h3 | h3
    · subst h3; exact h.1
    · have := ih (show blocksOrdered (blk :: rest2) by
        cases rest2 with
        | nil => trivial
        | cons b4 rest3 => exact ⟨le_trans h.1 (by have := h.2.1; omega), h.2.2⟩) b3 h3
      exact this

/-- What the encoder's search finds, the decoder's lookup resolves to the
same code point. -/
theorem connect {c : Nat} : ∀ {blocks : List CharRows} {row col : Nat},
    blocksOrdered blocks → findInBlocks c blocks = some (row, col) → c ≠ 0 →
      lookupBlocks row col blocks = some c := by
  intro blocks
  induction blocks with
  | nil => intro row col _ h _; exact absurd h (by simp [findInBlocks])
  | cons blk rest ih =>
    intro row col hord h hc0
    unfold findInBlocks at h
    unfold lookupBlocks
    cases hf : findInRows c blk.first blk.rows
    · rw [hf] at h
      obtain ⟨blk2, hmem, hb2, _⟩ := findInBlocks_spec h
      have hlb := ordered_lb hord blk2 hmem
      rw [if_neg (by omega)]
      exact ih (blocksOrdered_tail hord) h hc0
    · rw [hf] at h
      injection h with h
      subst h
      obtain ⟨h1, h2, rw2, h3, h4⟩ := findInRows_spec hf
      rw [if_pos ⟨h1, by omega⟩, h3]
      dsimp only
      rw [findIdxIn_get h4]
      dsimp only
      rw [if_neg hc0]

/-- Row and column bounds for a found code point. -/
theorem findInBlocks_bounds {c : Nat} {blocks : List CharRows} {row col : Nat}
    (h : findInBlocks c blocks = some (row, col))
    (hside : ∀ blk ∈ blocks, blk.first + blk.rows.length ≤ 94 ∧
      ∀ rw ∈ blk.rows, rw.length = 94) :
    row ≤ 93 ∧ col ≤ 93 := by
  obtain ⟨blk, hmem, h1, h2, rw, h3, h4⟩ := findInBlocks_spec h
  obtain ⟨hb1, hb2⟩ := hside blk hmem
  have hcol := findIdxIn_lt h4
  have hrw : rw ∈ blk.rows := List.get?_mem h3
  have := hb2 rw hrw
  omega

theorem searchIds_spec {c : Nat} {m : CharMapId} {row col : Nat} :
    ∀ {ids : List CharMapId}, searchIds c ids = some (m, row, col) →
      m ∈ ids ∧ findInMap m c = some (row, col) := by
  intro ids
  induction ids with
  | nil => intro h; exact absurd h (by simp [searchIds])
  | cons i rest ih =>
    intro h
    unfold searchIds at h
    cases hf : findInMap i c with
    | none =>
      rw [hf] at h
      obtain ⟨h1, h2⟩ := ih h
      exact ⟨List.mem_cons_of_mem _ h1, h2⟩
    | some rc =>
      rw [hf] at h
      injection h with h
      rw [Prod.mk.injEq] at h
      obtain ⟨h1, h2⟩ := h
      subst h1
      rw [← h2]
      exact ⟨List.mem_cons_self _ _, by rw [hf]⟩

theorem len_KANJI_BASE : KANJI_BASE_ROWS.length = 86 := by
  simp [KANJI_BASE_ROWS]

theorem mem_len_KANJI_BASE {rw : CharRow} (h : rw ∈ KANJI_BASE_ROWS) : rw.length = 94 := by
  simp only [KANJI_BASE_ROWS, List.mem_map] at h
  obtain ⟨i, _, rfl⟩ := h
  simp

theorem mem_len_KANJI_STANDARD {rw : CharRow} (h : rw ∈ KANJI_STANDARD_ROWS) :
    rw.length = 94 := by
  simp only [KANJI_STANDARD_ROWS, List.mem_map] at h
  obtain ⟨i, _, rfl⟩ := h
  simp

theorem mem_len_KANJI_ADDITIONAL {rw : CharRow} (h : rw ∈ KANJI_ADDITIONAL_ROWS) :
    rw.length = 94 := by
  simp only [KANJI_ADDITIONAL_ROWS, List.mem_map] at h
  obtain ⟨i, _, rfl⟩ := h
  simp

/-- Everything the roundtrip proof needs about a successful `findChar`. -/
theorem findChar_spec {c : Nat} {m : CharMapId} {row col : Nat}
    (h : findChar c = some (m, row, col)) :
    supported m = true ∧ lookupMap m row col = some c ∧ row ≤ 93 ∧ col ≤ 93 ∧
      ((mapOf m).byte2 = false → row = 0) := by
  unfold findChar at h
  split_ifs at h with hc0
  obtain ⟨hmem, hfind⟩ := searchIds_spec h
  clear h hmem
  unfold findInMap at hfind
  cases m
  · exact absurd hfind (by simp [mapOf, findInBlocks])
  · exact absurd hfind (by simp [mapOf, findInBlocks])
  ·
    obtain ⟨blk, hmem, h1, h2, _⟩ := findInBlocks_spec hfind
    simp only [mapOf, List.mem_singleton] at hmem
    subst hmem
    simp only [List.length_singleton] at h2
    refine ⟨rfl, connect trivial hfind hc0, by omega, ?_, fun _ => by omega⟩
    exact (findInBlocks_bounds hfind (by
      rintro blk hblk
      simp only [mapOf, List.mem_singleton] at hblk
      subst hblk
      refine ⟨by simp [ALPHANUMERIC_ROW], ?_⟩
      rintro rw hrw
      simp only [List.mem_singleton] at hrw
      subst hrw
      simp [ALPHANUMERIC_ROW])).2
  ·
    obtain ⟨blk, hmem, h1, h2, _⟩ := findInBlocks_spec hfind
    simp only [mapOf, List.mem_singleton] at hmem
    subst hmem
    simp only [List.length_singleton] at h2
    refine ⟨rfl, connect trivial hfind hc0, by omega, ?_, fun _ => by omega⟩
    exact (findInBlocks_bounds hfind (by
      rintro blk hblk
      simp only [mapOf, List.mem_singleton] at hblk
      subst hblk
      refine ⟨by simp [HIRAGANA_ROW], ?_⟩
      rintro rw hrw
      simp only [List.mem_singleton] at hrw
      subst hrw
      simp [HIRAGANA_ROW])).2
  ·
    obtain ⟨blk, hmem, h1, h2, _⟩ := findInBlocks_spec hfind
    simp only [mapOf, List.mem_singleton] at hmem
    subst hmem
    simp only [List.length_singleton] at h2
    refine ⟨rfl, connect trivial hfind hc0, by omega, ?_, fun _ => by omega⟩
    exact (findInBlocks_bounds hfind (by
      rintro blk hblk
      simp only [mapOf, List.mem_singleton] at hblk
      subst hblk
      refine ⟨by simp [KATAKANA_ROW], ?_⟩
      rintro rw hrw
      simp only [List.mem_singleton] at hrw
      subst hrw
      simp [KATAKANA_ROW])).2
  ·
    obtain ⟨blk, hmem, h1, h2, _⟩ := findInBlocks_spec hfind
    simp only [mapOf, List.mem_singleton] at hmem
    subst hmem
    simp only [List.length_singleton] at h2
    refine ⟨rfl, connect trivial hfind hc0, by omega, ?_, fun _ => by omega⟩
    exact (findInBlocks_bounds hfind (by
      rintro blk hblk
      simp only [mapOf, List.mem_singleton] at hblk
      subst hblk
      refine ⟨by simp [JIS_X0201_KATAKANA_ROW], ?_⟩
      rintro rw hrw
      simp only [List.mem_singleton] at hrw
      subst hrw
      simp [JIS_X0201_KATAKANA_ROW])).2
  ·
    have hord : blocksOrdered (mapOf CharMapId.kanjiStd).rows := by
      simp only [mapOf, blocksOrdered]
      exact ⟨by simp [len_KANJI_BASE], trivial⟩
    have hside : ∀ blk ∈ (mapOf CharMapId.kanjiStd).rows,
        blk.first + blk.rows.length ≤ 94 ∧ ∀ rw ∈ blk.rows, rw.length = 94 := by
      rintro blk hblk
      simp only [mapOf, List.mem_cons, List.mem_singleton] at hblk
      rcases hblk with rfl | rfl | h
      · exact ⟨by simp [len_KANJI_BASE], fun rw hrw => mem_len_KANJI_BASE hrw⟩
      · refine ⟨by simp [KANJI_STANDARD_ROWS], fun rw hrw => mem_len_KANJI_STANDARD hrw⟩
      · exact absurd h (by simp)
    obtain ⟨hb1, hb2⟩ := findInBlocks_bounds hfind hside
    exact ⟨rfl, connect hord hfind hc0, hb1, hb2, by simp [mapOf]⟩
  ·
    have hord : blocksOrdered (mapOf CharMapId.kanjiAdd).rows := by
      simp only [mapOf, blocksOrdered]
      exact ⟨by simp [len_KANJI_BASE], trivial⟩
    have hside : ∀ blk ∈ (mapOf CharMapId.kanjiAdd).rows,
        blk.first + blk.rows.length ≤ 94 ∧ ∀ rw ∈ blk.rows, rw.length = 94 := by
      rintro blk hblk
      simp only [mapOf, List.mem_cons, List.mem_singleton] at hblk
      rcases hblk with rfl | rfl | h
      · exact ⟨by simp [len_KANJI_BASE], fun rw hrw => mem_len_KANJI_BASE hrw⟩
      · refine ⟨by simp [KANJI_ADDITIONAL_ROWS], fun rw hrw => mem_len_KANJI_ADDITIONAL hrw⟩
      · exact absurd h (by simp)
    obtain ⟨hb1, hb2⟩ := findInBlocks_bounds hfind hside
    exact ⟨rfl, connect hord hfind hc0, hb1, hb2, by simp [mapOf]⟩

/-! Roundtrip: decoding what the encoder emits reproduces the text. -/

theorem colOf_code {x : Nat} (h : x ≤ 93) : colOf (0x21 + x) = x := by
  unfold colOf
  rw [Nat.mod_eq_of_lt (by omega)]
  omega

/-- Decoding the emitted character bytes appends exactly the encoded code
point and stays in the ground state. -/
theorem fold_charBytes {r : Registers} {o : List Nat} {m : CharMapId} {row col c : Nat}
    (hm : slotMap r r.gl = m) (hl : lookupMap m row col = some c)
    (hrow : row ≤ 93) (hcol : col ≤ 93) (h1b : (mapOf m).byte2 = false → row = 0) :
    List.foldl step ⟨r, Mode.normal, o⟩ (charBytes (mapOf m).byte2 row col) =
      ⟨r, Mode.normal, o ++ [c]⟩ := by
  by_cases hb : (mapOf m).byte2
  · rw [charBytes, if_pos hb]
    simp only [List.foldl_cons, List.foldl_nil]
    rw [step_gl2 (by omega) (by omega) hm hb, colOf_code hrow]
    exact step_second (Or.inl ⟨by omega, by omega⟩) (by rw [colOf_code hcol]; exact hl)
  · rw [charBytes, if_neg hb]
    simp only [List.foldl_cons, List.foldl_nil]
    have hrow0 := h1b (by simpa using hb)
    subst hrow0
    exact step_gl1 (by omega) (by omega) hm (by simpa using hb)
      (by rw [colOf_code hcol]; exact hl)

/-- Decoding everything the encoder emitted appends exactly the consumed
prefix of the text, successfully, whatever the buffer budget was. -/
theorem fold_encodeLoop : ∀ (chars : List Nat) (r : Registers) (o : List Nat) (budget : Nat),
    ∃ rf, List.foldl step ⟨r, Mode.normal, o⟩ (encodeLoop r budget chars).1 =
      ⟨rf, Mode.normal, o ++ chars.take (encodeLoop r budget chars).2⟩ := by
  intro chars
  induction chars with
  | nil => intro r o budget; exact ⟨r, by simp [encodeLoop]⟩
  | cons c rest ih =>
    intro r o budget
    cases hf : findChar c with
    | none => exact ⟨r, by simp [encodeLoop, hf]⟩
    | some mrc =>
      obtain ⟨m, row, col⟩ := mrc
      obtain ⟨hsupp, hlook, hrow, hcol, h1b⟩ := findChar_spec hf
      simp only [encodeLoop, hf]
      by_cases hfit : (switchSeq r m ++ charBytes (mapOf m).byte2 row col).length ≤ budget
      · rw [if_pos hfit]
        obtain ⟨rf, hrf⟩ := ih (switchState r m) (o ++ [c])
          (budget - (switchSeq r m ++ charBytes (mapOf m).byte2 row col).length)
        refine ⟨rf, ?_⟩
        dsimp only
        rw [List.foldl_append, List.foldl_append, fold_switchSeq,
          fold_charBytes
            (show slotMap (switchState r m) (switchState r m).gl = m from rfl)
            hlook hrow hcol h1b,
          hrf, List.take_succ_cons]
        simp
      · rw [if_neg hfit]
        exact ⟨r, by simp⟩

theorem switchSeq_len (r : Registers) (m : CharMapId) : (switchSeq r m).length ≤ 4 := by
  unfold switchSeq
  split_ifs <;> simp

theorem charBytes_len (b : Bool) (row col : Nat) : (charBytes b row col).length ≤ 2 := by
  unfold charBytes
  split_ifs <;> simp

/-- With enough buffer space, an encodable text is consumed entirely. -/
theorem encode_consumes : ∀ (chars : List Nat) (r : Registers) (budget : Nat),
    canEncodeFrom r chars = true → 6 * chars.length ≤ budget →
    (encodeLoop r budget chars).2 = chars.length := by
  intro chars
  induction chars with
  | nil => intro r budget _ _; rfl
  | cons c rest ih =>
    intro r budget hce hbud
    unfold canEncodeFrom at hce
    cases hf : findChar c with
    | none => rw [hf] at hce; exact absurd hce (by simp)
    | some mrc =>
      rw [hf] at hce
      obtain ⟨m, row, col⟩ := mrc
      simp only [encodeLoop, hf]
      have hlen : (switchSeq r m ++ charBytes (mapOf m).byte2 row col).length ≤ 6 := by
        have h1 := switchSeq_len r m
        have h2 := charBytes_len (mapOf m).byte2 row col
        simp only [List.length_append]
        omega
      rw [if_pos (by simp at hbud; omega)]
      dsimp only
      rw [ih (switchState r m) _ hce (by simp at hbud; omega)]
      simp

/-! Macro expansion behaves like inlining the body. -/

theorem foldl_step_failed {s : DState} {rest : List Nat}
    (h : s.mode = Mode.failed) : List.foldl step s rest = s :=
  foldl_stepCore_failed runMac rest s h

theorem foldl_stepNM_failed {s : DState} {rest : List Nat}
    (h : s.mode = Mode.failed) : List.foldl stepNM s rest = s :=
  foldl_stepCore_failed _ rest s h

/-- On a byte list with no macro control bytes, the top-level and the
nested decoding loops agree. -/
theorem foldl_step_eq_stepNM {bs : List Nat} (hg : ∀ x ∈ bs, isGraphic x) :
    ∀ s : DState, List.foldl step s bs = List.foldl stepNM s bs := by
  induction bs with
  | nil => intro s; rfl
  | cons b rest ih =>
    intro s
    simp only [List.foldl_cons]
    rw [show step s b = stepNM s b from
      stepCore_eq_nonmac _ _ (classify_graphic_ne_mac (hg b (by simp))) s]
    exact ih (fun x hx => hg x (by simp [hx])) (stepNM s b)

/-- Decoding a fixed macro body from any register state preserves the
registers and ends in the ground or the fatal state. -/
theorem macroBody_run {b : Nat} {body : List Nat} (h : macBody b = some body)
    (r : Registers) (acc : List Nat) :
    (List.foldl stepNM ⟨r, Mode.normal, acc⟩ body).regs = r ∧
    ((List.foldl stepNM ⟨r, Mode.normal, acc⟩ body).mode = Mode.normal ∨
     (List.foldl stepNM ⟨r, Mode.normal, acc⟩ body).mode = Mode.failed) := by
  rcases macBody_cases h with ⟨_, rfl⟩ | ⟨_, rfl⟩
  · simp only [List.foldl_cons, List.foldl_nil, stepNM]
    by_cases hb2 : (mapOf (slotMap r r.gl)).byte2
    · rw [stepCore_gl2 _ (by omega) (by omega) rfl hb2]
      cases hl : lookupMap (slotMap r r.gl) (colOf 0x41) (colOf 0x42)
      · rw [stepCore_second_fail _ (Or.inl ⟨by omega, by omega⟩) hl]
        exact ⟨rfl, Or.inr rfl⟩
      · rw [stepCore_second _ (Or.inl ⟨by omega, by omega⟩) hl]
        exact ⟨rfl, Or.inl rfl⟩
    · have hb2' : (mapOf (slotMap r r.gl)).byte2 = false := by simpa using hb2
      cases hl : lookupMap (slotMap r r.gl) 0 (colOf 0x41)
      · rw [stepCore_gl1_fail _ (by omega) (by omega) rfl hb2' hl,
          stepCore_failed _ _ _ rfl]
        exact ⟨rfl, Or.inr rfl⟩
      · rw [stepCore_gl1 _ (by omega) (by omega) rfl hb2' hl]
        cases hl2 : lookupMap (slotMap r r.gl) 0 (colOf 0x42)
        · rw [stepCore_gl1_fail _ (by omega) (by omega) rfl hb2' hl2]
          exact ⟨rfl, Or.inr rfl⟩
        · rw [stepCore_gl1 _ (by omega) (by omega) rfl hb2' hl2]
          exact ⟨rfl, Or.inl rfl⟩
  · simp only [List.foldl_cons, List.foldl_nil, stepNM]
    by_cases hb2 : (mapOf (slotMap r r.gr)).byte2
    · rw [stepCore_gr2 _ (by omega) (by omega) rfl hb2]
      cases hl : lookupMap (slotMap r r.gr) (colOf 0xA1) (colOf 0xA2)
      · rw [stepCore_second_fail _ (Or.inr ⟨by omega, by omega⟩) hl]
        exact ⟨rfl, Or.inr rfl⟩
      · rw [stepCore_second _ (Or.inr ⟨by omega, by omega⟩) hl]
        exact ⟨rfl, Or.inl rfl⟩
    · have hb2' : (mapOf (slotMap r r.gr)).byte2 = false := by simpa using hb2
      cases hl : lookupMap (slotMap r r.gr) 0 (colOf 0xA1)
      · rw [stepCore_gr1_fail _ (by omega) (by omega) rfl hb2' hl,
          stepCore_failed _ _ _ rfl]
        exact ⟨rfl, Or.inr rfl⟩
      · rw [stepCore_gr1 _ (by omega) (by omega) rfl hb2' hl]
        cases hl2 : lookupMap (slotMap r r.gr) 0 (colOf 0xA2)
        · rw [stepCore_gr1_fail _ (by omega) (by omega) rfl hb2' hl2]
          exact ⟨rfl, Or.inr rfl⟩
        · rw [stepCore_gr1 _ (by omega) (by omega) rfl hb2' hl2]
          exact ⟨rfl, Or.inl rfl⟩

/-- Expanding a macro control byte leaves the decoder in exactly the state
that inlining its body would. -/
theorem fold_mac_inline {b : Nat} {body : List Nat} (h : macBody b = some body)
    (r : Registers) (acc rest : List Nat) :
    List.foldl step ⟨r, Mode.normal, acc⟩ (b :: rest) =
    List.foldl step ⟨r, Mode.normal, acc⟩ (body ++ rest) := by
  have hgraph : ∀ x ∈ body, isGraphic x := by
    rcases macBody_cases h with ⟨_, rfl⟩ | ⟨_, rfl⟩ <;>
      · intro x hx
        simp only [List.mem_cons, List.not_mem_nil, or_false] at hx
        rcases hx with rfl | rfl
        · first
          | exact Or.inl ⟨by omega, by omega⟩
          | exact Or.inr ⟨by omega, by omega⟩
        · first
          | exact Or.inl ⟨by omega, by omega⟩
          | exact Or.inr ⟨by omega, by omega⟩
  obtain ⟨hregs, hmode⟩ := macroBody_run h r acc
  rw [List.foldl_cons, List.foldl_append, step_mac h,
    foldl_step_eq_stepNM hgraph]
  simp only [runMac]
  rcases hE : List.foldl stepNM (⟨r, Mode.normal, acc⟩ : DState) body with ⟨ir, im, io⟩
  rw [hE] at hregs hmode
  dsimp only at hregs hmode ⊢
  subst hregs
  rcases hmode with rfl | rfl
  · rw [if_pos rfl]
  · rw [if_neg (fun hh => nomatch hh)]

/-! Linear resource bounds: each input byte contributes a bounded amount
of work and output. -/

theorem classify_mac_inv {b : Nat} {body : List Nat}
    (h : classifyByte b = ByteClass.mac body) : macBody b = some body := by
  unfold classifyByte at h
  split_ifs at h
  cases hm : macBody b
  · rw [hm] at h
    exact absurd h (by simp)
  · rw [hm] at h
    injection h with h
    rw [h]

theorem decodeGlyph_bound (s : DState) (m : CharMapId) (b : Nat) :
    (decodeGlyph s m b).out.length ≤ s.out.length + 1 := by
  unfold decodeGlyph
  split_ifs
  · simp
  · cases hl : lookupMap m 0 (colOf b)
    · simp [dfail]
    · simp

theorem stepCore_bound (mac : DState → List Nat → DState) (k : Nat) (hk : 1 ≤ k)
    (hmac : ∀ (s : DState) (b : Nat) (body : List Nat),
      classifyByte b = ByteClass.mac body →
      (mac s body).out.length ≤ s.out.length + k) :
    ∀ (r : Registers) (m : Mode) (o : List Nat) (b : Nat),
      (stepCore mac ⟨r, m, o⟩ b).out.length ≤ o.length + k := by
  intro r m o b
  cases m <;> dsimp only [stepCore]
  case failed => omega
  case normal =>
    cases hc : classifyByte b <;> dsimp only [dfail]
    case gl =>
      have := decodeGlyph_bound ⟨r, .normal, o⟩ (slotMap r r.gl) b
      dsimp only at this
      omega
    case gr =>
      have := decodeGlyph_bound ⟨r, .normal, o⟩ (slotMap r r.gr) b
      dsimp only at this
      omega
    case mac body => exact hmac ⟨r, .normal, o⟩ b body hc
    all_goals omega
  case esc =>
    split_ifs <;> dsimp only [dfail] <;> omega
  case esc24 =>
    split_ifs
    · dsimp only
      omega
    · cases hf : finalTo2 b <;> dsimp only [dfail] <;> omega
  case escDes1 g =>
    cases hf : finalTo1 b <;> dsimp only [dfail] <;> omega
  case escDes2 g =>
    cases hf : finalTo2 b <;> dsimp only [dfail] <;> omega
  case shifted g =>
    split_ifs
    · have := decodeGlyph_bound ⟨r, .shifted g, o⟩ (slotMap r g) b
      dsimp only at this
      omega
    · dsimp only [dfail]
      omega
  case second mm row =>
    split_ifs
    · cases hl : lookupMap mm row (colOf b) <;> dsimp only [dfail]
      · omega
      · simp only [List.length_append, List.length_cons, List.length_nil]
        omega
    · dsimp only [dfail]
      omega

theorem foldl_bound {f : DState → Nat → DState} {k : Nat}
    (hf : ∀ s b, (f s b).out.length ≤ s.out.length + k) :
    ∀ (bs : List Nat) (s : DState),
      (List.foldl f s bs).out.length ≤ s.out.length + k * bs.length := by
  intro bs
  induction bs with
  | nil => intro s; simp
  | cons b rest ih =>
    intro s
    simp only [List.foldl_cons, List.length_cons]
    have h1 := hf s b
    have h2 := ih (f s b)
    have : k * (rest.length + 1) = k * rest.length + k := by ring
    omega

theorem stepNM_bound (s : DState) (b : Nat) :
    (stepNM s b).out.length ≤ s.out.length + 1 := by
  obtain ⟨r, m, o⟩ := s
  exact stepCore_bound _ 1 (le_refl 1) (fun s _ _ _ => by simp [dfail]) r m o b

theorem runMac_bound (s : DState) (b : Nat) (body : List Nat)
    (hc : classifyByte b = ByteClass.mac body) :
    (runMac s body).out.length ≤ s.out.length + 2 := by
  have hlen : body.length = 2 := by
    rcases macBody_cases (classify_mac_inv hc) with ⟨_, rfl⟩ | ⟨_, rfl⟩ <;> rfl
  have hin := foldl_bound stepNM_bound body s
  rw [hlen] at hin
  simp only [runMac]
  split_ifs <;> dsimp <;> omega

theorem step_bound (s : DState) (b : Nat) :
    (step s b).out.length ≤ s.out.length + 2 := by
  obtain ⟨r, m, o⟩ := s
  exact stepCore_bound runMac 2 (by omega)
    (fun s b body hc => runMac_bound s b body hc) r m o b

theorem encodeLoop_consumed_le : ∀ (chars : List Nat) (r : Registers) (budget : Nat),
    (encodeLoop r budget chars).2 ≤ chars.length := by
  intro chars
  induction chars with
  | nil => intro r budget; simp [encodeLoop]
  | cons c rest ih =>
    intro r budget
    simp only [encodeLoop]
    cases hf : findChar c with
    | none => simp
    | some mrc =>
      obtain ⟨m, row, col⟩ := mrc
      dsimp only
      split_ifs
      · have := ih (switchState r m)
          (budget - (switchSeq r m ++ charBytes (mapOf m).byte2 row col).length)
        simp only [List.length_cons]
        omega
      · simp

theorem encodeLoop_bytes_le : ∀ (chars : List Nat) (r : Registers) (budget : Nat),
    (encodeLoop r budget chars).1.length ≤ budget := by
  intro chars
  induction chars with
  | nil => intro r budget; simp [encodeLoop]
  | cons c rest ih =>
    intro r budget
    simp only [encodeLoop]
    cases hf : findChar c with
    | none => simp
    | some mrc =>
      obtain ⟨m, row, col⟩ := mrc
      dsimp only
      split_ifs with hfit
      · dsimp only
        have hIH := ih (switchState r m)
          (budget - (switchSeq r m ++ charBytes (mapOf m).byte2 row col).length)
        have htop := List.length_append
          (switchSeq r m ++ charBytes (mapOf m).byte2 row col)
          (encodeLoop (switchState r m)
            (budget - (switchSeq r m ++ charBytes (mapOf m).byte2 row col).length) rest).1
        omega
      · simp

/-! A big-step characterization of successful decoding: the success flag
returned by `decode` holds exactly when every byte is consumed without a
fatal error, per the spec's taxonomy of decoding steps. -/

/-- One decoded glyph: the bytes consumed and the code point produced
through a given map. -/
inductive Glyph : CharMapId → List Nat → Nat → Prop where
  | one {m : CharMapId} {b c : Nat} :
      isGraphic b → (mapOf m).byte2 = false →
      lookupMap m 0 (colOf b) = some c → Glyph m [b] c
  | two {m : CharMapId} {b b2 c : Nat} :
      isGraphic b → isGraphic b2 → (mapOf m).byte2 = true →
      lookupMap m (colOf b) (colOf b2) = some c → Glyph m [b, b2] c

/-- Every byte of the list is consumed from register state `r` without a
fatal error: graphic characters through the invoked maps, locking and
single shifts, escape designations, and macro expansions whose body
decodes successfully. -/
inductive Consumes : Registers → List Nat → Prop where
  | nil {r : Registers} : Consumes r []
  | chrGL {r : Registers} {b : Nat} {bs rest : List Nat} {c : Nat} :
      0x21 ≤ b → b ≤ 0x7E → Glyph (slotMap r r.gl) (b :: bs) c →
      Consumes r rest → Consumes r ((b :: bs) ++ rest)
  | chrGR {r : Registers} {b : Nat} {bs rest : List Nat} {c : Nat} :
      0xA1 ≤ b → b ≤ 0xFE → Glyph (slotMap r r.gr) (b :: bs) c →
      Consumes r rest → Consumes r ((b :: bs) ++ rest)
  | ls0 {r : Registers} {rest : List Nat} :
      Consumes (lockGL r .g0) rest → Consumes r (0x0F :: rest)
  | ls1 {r : Registers} {rest : List Nat} :
      Consumes (lockGL r .g1) rest → Consumes r (0x0E :: rest)
  | ss2 {r : Registers} {bs rest : List Nat} {c : Nat} :
      Glyph (slotMap r .g2) bs c → Consumes r rest → Consumes r (0x19 :: bs ++ rest)
  | ss3 {r : Registers} {bs rest : List Nat} {c : Nat} :
      Glyph (slotMap r .g3) bs c → Consumes r rest → Consumes r (0x1D :: bs ++ rest)
  | des1 {r : Registers} {x f : Nat} {m : CharMapId} {rest : List Nat} :
      0x28 ≤ x → x ≤ 0x2B → finalTo1 f = some m →
      Consumes (setSlot r (gidxOf (x - 0x28)) m) rest →
      Consumes r (0x1B :: x :: f :: rest)
  | des2G0 {r : Registers} {f : Nat} {m : CharMapId} {rest : List Nat} :
      ¬(0x29 ≤ f ∧ f ≤ 0x2B) → finalTo2 f = some m →
      Consumes (setSlot r .g0 m) rest →
      Consumes r (0x1B :: 0x24 :: f :: rest)
  | des2 {r : Registers} {x f : Nat} {m : CharMapId} {rest : List Nat} :
      0x29 ≤ x → x ≤ 0x2B → finalTo2 f = some m →
      Consumes (setSlot r (gidxOf (x - 0x28)) m) rest →
      Consumes r (0x1B :: 0x24 :: x :: f :: rest)
  | escLs2 {r : Registers} {rest : List Nat} :
      Consumes (lockGL r .g2) rest → Consumes r (0x1B :: 0x6E :: rest)
  | escLs3 {r : Registers} {rest : List Nat} :
      Consumes (lockGL r .g3) rest → Consumes r (0x1B :: 0x6F :: rest)
  | mac {r : Registers} {b : Nat} {body rest : List Nat} :
      macBody b = some body →
      (List.foldl stepNM ⟨r, Mode.normal, []⟩ body).mode = Mode.normal →
      Consumes r rest → Consumes r (b :: rest)

/-- A single-shifted graphic byte through a 2-byte map records the row. -/
theorem stepCore_shifted2 (mac : DState → List Nat → DState)
    {r : Registers} {o : List Nat} {b : Nat} {g : GIdx} {m : CharMapId}
    (hg : isGraphic b) (hm : slotMap r g = m) (hb2 : (mapOf m).byte2 = true) :
    stepCore mac ⟨r, Mode.shifted g, o⟩ b = ⟨r, Mode.second m (colOf b), o⟩ := by
  dsimp only [stepCore]
  rw [if_pos hg]
  dsimp only [decodeGlyph]
  rw [hm, hb2]
  simp only [if_true]

theorem step_shifted1 {r : Registers} {o : List Nat} {b : Nat} {g : GIdx}
    {m : CharMapId} {c : Nat}
    (hg : isGraphic b) (hm : slotMap r g = m) (hb2 : (mapOf m).byte2 = false)
    (hc : lookupMap m 0 (colOf b) = some c) :
    step ⟨r, Mode.shifted g, o⟩ b = ⟨r, Mode.normal, o ++ [c]⟩ :=
  stepCore_shifted1 runMac hg hm hb2 hc

theorem step_shifted2 {r : Registers} {o : List Nat} {b : Nat} {g : GIdx} {m : CharMapId}
    (hg : isGraphic b) (hm : slotMap r g = m) (hb2 : (mapOf m).byte2 = true) :
    step ⟨r, Mode.shifted g, o⟩ b = ⟨r, Mode.second m (colOf b), o⟩ :=
  stepCore_shifted2 runMac hg hm hb2

theorem step_ss2_b (r : Registers) (o : List Nat) :
    step ⟨r, Mode.normal, o⟩ 0x19 = ⟨r, Mode.shifted .g2, o⟩ := rfl

theorem step_ss3_b (r : Registers) (o : List Nat) :
    step ⟨r, Mode.normal, o⟩ 0x1D = ⟨r, Mode.shifted .g3, o⟩ := rfl

theorem step_ls1_b (r : Registers) (o : List Nat) :
    step ⟨r, Mode.normal, o⟩ 0x0E = ⟨lockGL r .g1, Mode.normal, o⟩ := rfl

theorem step_esc_begin (r : Registers) (o : List Nat) :
    step ⟨r, Mode.normal, o⟩ 0x1B = ⟨r, Mode.esc, o⟩ := rfl

/-- Soundness: a derivable consumption runs the automaton from any
accumulator to the ground state. -/
theorem consumes_sound {r : Registers} {bs : List Nat} (h : Consumes r bs) :
    ∀ acc, (List.foldl step ⟨r, Mode.normal, acc⟩ bs).mode = Mode.normal := by
  induction h with
  | nil => intro acc; rfl
  | chrGL h1 h2 hg hrest ih =>
    intro acc
    cases hg with
    | one hgr hb2 hc =>
      simp only [List.cons_append, List.nil_append, List.foldl_cons]
      rw [step_gl1 h1 h2 rfl hb2 hc]
      exact ih _
    | two hgr hgr2 hb2 hc =>
      simp only [List.cons_append, List.nil_append, List.foldl_cons]
      rw [step_gl2 h1 h2 rfl hb2, step_second hgr2 hc]
      exact ih _
  | chrGR h1 h2 hg hrest ih =>
    intro acc
    cases hg with
    | one hgr hb2 hc =>
      simp only [List.cons_append, List.nil_append, List.foldl_cons]
      rw [show step ⟨_, Mode.normal, acc⟩ _ = _ from
        stepCore_gr1 runMac h1 h2 rfl hb2 hc]
      exact ih _
    | two hgr hgr2 hb2 hc =>
      simp only [List.cons_append, List.nil_append, List.foldl_cons]
      rw [show step ⟨_, Mode.normal, acc⟩ _ = _ from
        stepCore_gr2 runMac h1 h2 rfl hb2, step_second hgr2 hc]
      exact ih _
  | ls0 hrest ih =>
    intro acc
    simp only [List.foldl_cons, step_ls0]
    exact ih _
  | ls1 hrest ih =>
    intro acc
    simp only [List.foldl_cons, step_ls1_b]
    exact ih _
  | ss2 hg hrest ih =>
    intro acc
    cases hg with
    | one hgr hb2 hc =>
      simp only [List.cons_append, List.nil_append, List.foldl_cons, step_ss2_b]
      rw [step_shifted1 hgr rfl hb2 hc]
      exact ih _
    | two hgr hgr2 hb2 hc =>
      simp only [List.cons_append, List.nil_append, List.foldl_cons, step_ss2_b]
      rw [step_shifted2 hgr rfl hb2, step_second hgr2 hc]
      exact ih _
  | ss3 hg hrest ih =>
    intro acc
    cases hg with
    | one hgr hb2 hc =>
      simp only [List.cons_append, List.nil_append, List.foldl_cons, step_ss3_b]
      rw [step_shifted1 hgr rfl hb2 hc]
      exact ih _
    | two hgr hgr2 hb2 hc =>
      simp only [List.cons_append, List.nil_append, List.foldl_cons, step_ss3_b]
      rw [step_shifted2 hgr rfl hb2, step_second hgr2 hc]
      exact ih _
  | des1 h1 h2 hf hrest ih =>
    intro acc
    simp only [List.foldl_cons, step_esc_begin]
    rw [show step ⟨_, Mode.esc, acc⟩ _ = ⟨_, Mode.escDes1 (gidxOf (_ - 0x28)), acc⟩ by
      show stepCore _ _ _ = _
      dsimp only [stepCore]
      rw [if_neg (by omega), if_pos ⟨h1, h2⟩]]
    rw [show step ⟨_, Mode.escDes1 (gidxOf (_ - 0x28)), acc⟩ _ =
        ⟨setSlot _ (gidxOf (_ - 0x28)) _, Mode.normal, acc⟩ by
      show stepCore _ _ _ = _
      dsimp only [stepCore]
      rw [hf]]
    exact ih _
  | des2G0 hnot hf hrest ih =>
    intro acc
    simp only [List.foldl_cons, step_esc_begin]
    rw [show step ⟨_, Mode.esc, acc⟩ 0x24 = ⟨_, Mode.esc24, acc⟩ from rfl]
    rw [show step ⟨_, Mode.esc24, acc⟩ _ = ⟨setSlot _ .g0 _, Mode.normal, acc⟩ by
      show stepCore _ _ _ = _
      dsimp only [stepCore]
      rw [if_neg hnot, hf]]
    exact ih _
  | des2 h1 h2 hf hrest ih =>
    intro acc
    simp only [List.foldl_cons, step_esc_begin]
    rw [show step ⟨_, Mode.esc, acc⟩ 0x24 = ⟨_, Mode.esc24, acc⟩ from rfl]
    rw [show step ⟨_, Mode.esc24, acc⟩ _ = ⟨_, Mode.escDes2 (gidxOf (_ - 0x28)), acc⟩ by
      show stepCore _ _ _ = _
      dsimp only [stepCore]
      rw [if_pos ⟨h1, h2⟩]]
    rw [show step ⟨_, Mode.escDes2 (gidxOf (_ - 0x28)), acc⟩ _ =
        ⟨setSlot _ (gidxOf (_ - 0x28)) _, Mode.normal, acc⟩ by
      show stepCore _ _ _ = _
      dsimp only [stepCore]
      rw [hf]]
    exact ih _
  | escLs2 hrest ih =>
    intro acc
    simp only [List.foldl_cons, step_esc_begin]
    rw [show step ⟨_, Mode.esc, acc⟩ 0x6E = ⟨lockGL _ .g2, Mode.normal, acc⟩ from rfl]
    exact ih _
  | escLs3 hrest ih =>
    intro acc
    simp only [List.foldl_cons, step_esc_begin]
    rw [show step ⟨_, Mode.esc, acc⟩ 0x6F = ⟨lockGL _ .g3, Mode.normal, acc⟩ from rfl]
    exact ih _
  | @mac r2 b2 body2 rest2 hb hbody hrest ih =>
    intro acc
    simp only [List.foldl_cons]
    rw [step_mac hb]
    simp only [runMac]
    have hsim := foldl_stepNM_sim body2
      (s := ⟨r2, Mode.normal, acc⟩) (t := ⟨r2, Mode.normal, []⟩) ⟨rfl, rfl⟩
    rw [if_pos (by rw [hsim.2]; exact hbody)]
    exact ih _

/-! Inversion lemmas for the byte classifier and mode-level unfoldings of
the step function, used to invert a successful run. -/

theorem classify_inv_esc {b : Nat} (h : classifyByte b = ByteClass.esc) : b = 0x1B := by
  unfold classifyByte at h
  split_ifs at h with h1 h2 h3 h4 h5 h6 h7
  all_goals first
    | assumption
    | exact absurd h (by simp)
    | (cases hm : macBody b <;> rw [hm] at h <;> exact absurd h (by simp))

theorem classify_inv_ls0 {b : Nat} (h : classifyByte b = ByteClass.ls0) : b = 0x0F := by
  unfold classifyByte at h
  split_ifs at h with h1 h2 h3 h4 h5 h6 h7
  all_goals first
    | assumption
    | exact absurd h (by simp)
    | (cases hm : macBody b <;> rw [hm] at h <;> exact absurd h (by simp))

theorem classify_inv_ls1 {b : Nat} (h : classifyByte b = ByteClass.ls1) : b = 0x0E := by
  unfold classifyByte at h
  split_ifs at h with h1 h2 h3 h4 h5 h6 h7
  all_goals first
    | assumption
    | exact absurd h (by simp)
    | (cases hm : macBody b <;> rw [hm] at h <;> exact absurd h (by simp))

theorem classify_inv_ss2 {b : Nat} (h : classifyByte b = ByteClass.ss2) : b = 0x19 := by
  unfold classifyByte at h
  split_ifs at h with h1 h2 h3 h4 h5 h6 h7
  all_goals first
    | assumption
    | exact absurd h (by simp)
    | (cases hm : macBody b <;> rw [hm] at h <;> exact absurd h (by simp))

theorem classify_inv_ss3 {b : Nat} (h : classifyByte b = ByteClass.ss3) : b = 0x1D := by
  unfold classifyByte at h
  split_ifs at h with h1 h2 h3 h4 h5 h6 h7
  all_goals first
    | assumption
    | exact absurd h (by simp)
    | (cases hm : macBody b <;> rw [hm] at h <;> exact absurd h (by simp))

theorem classify_inv_gl {b : Nat} (h : classifyByte b = ByteClass.gl) :
    0x21 ≤ b ∧ b ≤ 0x7E := by
  unfold classifyByte at h
  split_ifs at h with h1 h2 h3 h4 h5 h6 h7
  all_goals first
    | assumption
    | exact absurd h (by simp)
    | (cases hm : macBody b <;> rw [hm] at h <;> exact absurd h (by simp))

theorem classify_inv_gr {b : Nat} (h : classifyByte b = ByteClass.gr) :
    0xA1 ≤ b ∧ b ≤ 0xFE := by
  unfold classifyByte at h
  split_ifs at h with h1 h2 h3 h4 h5 h6 h7
  all_goals first
    | assumption
    | exact absurd h (by simp)
    | (cases hm : macBody b <;> rw [hm] at h <;> exact absurd h (by simp))

theorem step_cls_gl {r : Registers} {o : List Nat} {b : Nat}
    (hc : classifyByte b = ByteClass.gl) :
    step ⟨r, Mode.normal, o⟩ b = decodeGlyph ⟨r, Mode.normal, o⟩ (slotMap r r.gl) b := by
  show stepCore runMac _ _ = _
  dsimp only [stepCore]
  rw [hc]

theorem step_cls_gr {r : Registers} {o : List Nat} {b : Nat}
    (hc : classifyByte b = ByteClass.gr) :
    step ⟨r, Mode.normal, o⟩ b = decodeGlyph ⟨r, Mode.normal, o⟩ (slotMap r r.gr) b := by
  show stepCore runMac _ _ = _
  dsimp only [stepCore]
  rw [hc]

theorem step_cls_bad {r : Registers} {o : List Nat} {b : Nat}
    (hc : classifyByte b = ByteClass.bad) :
    step ⟨r, Mode.normal, o⟩ b = ⟨r, Mode.failed, o⟩ := by
  show stepCore runMac _ _ = _
  dsimp only [stepCore]
  rw [hc]
  rfl

theorem step_esc_b (r : Registers) (o : List Nat) (b : Nat) :
    step ⟨r, Mode.esc, o⟩ b =
      if b = 0x24 then (⟨r, Mode.esc24, o⟩ : DState)
      else if 0x28 ≤ b ∧ b ≤ 0x2B then ⟨r, Mode.escDes1 (gidxOf (b - 0x28)), o⟩
      else if b = 0x6E then ⟨lockGL r .g2, Mode.normal, o⟩
      else if b = 0x6F then ⟨lockGL r .g3, Mode.normal, o⟩
      else ⟨r, Mode.failed, o⟩ := rfl

theorem step_esc24_b (r : Registers) (o : List Nat) (b : Nat) :
    step ⟨r, Mode.esc24, o⟩ b =
      if 0x29 ≤ b ∧ b ≤ 0x2B then (⟨r, Mode.escDes2 (gidxOf (b - 0x28)), o⟩ : DState)
      else
        match finalTo2 b with
        | some m => ⟨setSlot r .g0 m, Mode.normal, o⟩
        | none => ⟨r, Mode.failed, o⟩ := rfl

theorem step_escDes1_b (r : Registers) (o : List Nat) (b : Nat) (g : GIdx) :
    step ⟨r, Mode.escDes1 g, o⟩ b =
      match finalTo1 b with
      | some m => ⟨setSlot r g m, Mode.normal, o⟩
      | none => ⟨r, Mode.failed, o⟩ := rfl

theorem step_escDes2_b (r : Registers) (o : List Nat) (b : Nat) (g : GIdx) :
    step ⟨r, Mode.escDes2 g, o⟩ b =
      match finalTo2 b with
      | some m => ⟨setSlot r g m, Mode.normal, o⟩
      | none => ⟨r, Mode.failed, o⟩ := rfl

theorem step_shifted_b (r : Registers) (o : List Nat) (b : Nat) (g : GIdx) :
    step ⟨r, Mode.shifted g, o⟩ b =
      if isGraphic b then decodeGlyph ⟨r, Mode.shifted g, o⟩ (slotMap r g) b
      else ⟨r, Mode.failed, o⟩ := rfl

theorem step_second_b (r : Registers) (o : List Nat) (b : Nat) (m : CharMapId) (row : Nat) :
    step ⟨r, Mode.second m row, o⟩ b =
      if isGraphic b then
        match lookupMap m row (colOf b) with
        | some c => (⟨r, Mode.normal, o ++ [c]⟩ : DState)
        | none => ⟨r, Mode.failed, o⟩
      else ⟨r, Mode.failed, o⟩ := rfl

theorem decodeGlyph_two' {r : Registers} {mo : Mode} {o : List Nat}
    {m : CharMapId} {b : Nat} (hb2 : (mapOf m).byte2 = true) :
    decodeGlyph ⟨r, mo, o⟩ m b = ⟨r, Mode.second m (colOf b), o⟩ := by
  unfold decodeGlyph
  rw [hb2]
  simp only [if_true]

theorem decodeGlyph_one_some' {r : Registers} {mo : Mode} {o : List Nat}
    {m : CharMapId} {b c : Nat} (hb2 : (mapOf m).byte2 = false)
    (hl : lookupMap m 0 (colOf b) = some c) :
    decodeGlyph ⟨r, mo, o⟩ m b = ⟨r, Mode.normal, o ++ [c]⟩ := by
  unfold decodeGlyph
  rw [hb2]
  simp only [Bool.false_eq_true, if_false, hl]

theorem decodeGlyph_one_none' {r : Registers} {mo : Mode} {o : List Nat}
    {m : CharMapId} {b : Nat} (hb2 : (mapOf m).byte2 = false)
    (hl : lookupMap m 0 (colOf b) = none) :
    decodeGlyph ⟨r, mo, o⟩ m b = ⟨r, Mode.failed, o⟩ := by
  unfold decodeGlyph
  rw [hb2]
  simp only [Bool.false_eq_true, if_false, hl]
  rfl

/-- Completeness: a run that reaches the end of the buffer in the ground
state is a derivable consumption. -/
theorem consumes_complete :
    ∀ (n : Nat) (bs : List Nat), bs.length ≤ n → ∀ (r : Registers) (acc : List Nat),
      (List.foldl step ⟨r, Mode.normal, acc⟩ bs).mode = Mode.normal → Consumes r bs := by
  intro n
  induction n with
  | zero =>
    intro bs hlen r acc _
    cases bs with
    | nil => exact Consumes.nil
    | cons b rest => simp at hlen
  | succ n ih =>
    intro bs hlen r acc hfold
    cases bs with
    | nil => exact Consumes.nil
    | cons b rest =>
      simp only [List.length_cons] at hlen
      rw [List.foldl_cons] at hfold
      cases hc : classifyByte b
      case esc =>
        have hb := classify_inv_esc hc
        subst hb
        rw [step_esc_begin] at hfold
        cases rest with
        | nil => exact absurd hfold (by simp)
        | cons b2 rest2 =>
          simp only [List.length_cons] at hlen
          rw [List.foldl_cons, step_esc_b] at hfold
          by_cases h24 : b2 = 0x24
          · subst h24
            rw [if_pos rfl] at hfold
            cases rest2 with
            | nil => exact absurd hfold (by simp)
            | cons b3 rest3 =>
              simp only [List.length_cons] at hlen
              rw [List.foldl_cons, step_esc24_b] at hfold
              by_cases h29 : 0x29 ≤ b3 ∧ b3 ≤ 0x2B
              · rw [if_pos h29] at hfold
                cases rest3 with
                | nil => exact absurd hfold (by simp)
                | cons b4 rest4 =>
                  simp only [List.length_cons] at hlen
                  rw [List.foldl_cons, step_escDes2_b] at hfold
                  cases hf : finalTo2 b4 with
                  | none =>
                    rw [hf, foldl_step_failed rfl] at hfold
                    exact absurd hfold (by simp)
                  | some m =>
                    rw [hf] at hfold
                    exact Consumes.des2 h29.1 h29.2 hf
                      (ih rest4 (by omega) _ _ hfold)
              · rw [if_neg h29] at hfold
                cases hf : finalTo2 b3 with
                | none =>
                  rw [hf, foldl_step_failed rfl] at hfold
                  exact absurd hfold (by simp)
                | some m =>
                  rw [hf] at hfold
                  exact Consumes.des2G0 h29 hf
                    (ih rest3 (by omega) _ _ hfold)
          · rw [if_neg h24] at hfold
            by_cases h28 : 0x28 ≤ b2 ∧ b2 ≤ 0x2B
            · rw [if_pos h28] at hfold
              cases rest2 with
              | nil => exact absurd hfold (by simp)
              | cons b3 rest3 =>
                simp only [List.length_cons] at hlen
                rw [List.foldl_cons, step_escDes1_b] at hfold
                cases hf : finalTo1 b3 with
                | none =>
                  rw [hf, foldl_step_failed rfl] at hfold
                  exact absurd hfold (by simp)
                | some m =>
                  rw [hf] at hfold
                  exact Consumes.des1 h28.1 h28.2 hf
                    (ih rest3 (by omega) _ _ hfold)
            · rw [if_neg h28] at hfold
              by_cases h6E : b2 = 0x6E
              · subst h6E
                rw [if_pos rfl] at hfold
                exact Consumes.escLs2 (ih rest2 (by omega) _ _ hfold)
              · rw [if_neg h6E] at hfold
                by_cases h6F : b2 = 0x6F
                · subst h6F
                  rw [if_pos rfl] at hfold
                  exact Consumes.escLs3 (ih rest2 (by omega) _ _ hfold)
                · rw [if_neg h6F, foldl_step_failed rfl] at hfold
                  exact absurd hfold (by simp)
      case ls0 =>
        have hb := classify_inv_ls0 hc
        subst hb
        rw [step_ls0] at hfold
        exact Consumes.ls0 (ih rest (by omega) _ _ hfold)
      case ls1 =>
        have hb := classify_inv_ls1 hc
        subst hb
        rw [step_ls1_b] at hfold
        exact Consumes.ls1 (ih rest (by omega) _ _ hfold)
      case ss2 =>
        have hb := classify_inv_ss2 hc
        subst hb
        rw [step_ss2_b] at hfold
        cases rest with
        | nil => exact absurd hfold (by simp)
        | cons b2 rest2 =>
          simp only [List.length_cons] at hlen
          rw [List.foldl_cons, step_shifted_b] at hfold
          by_cases hg2 : isGraphic b2
          · rw [if_pos hg2] at hfold
            by_cases hb2 : (mapOf (slotMap r .g2)).byte2
            · rw [decodeGlyph_two' hb2] at hfold
              cases rest2 with
              | nil => exact absurd hfold (by simp)
              | cons b3 rest3 =>
                simp only [List.length_cons] at hlen
                rw [List.foldl_cons, step_second_b] at hfold
                by_cases hg3 : isGraphic b3
                · rw [if_pos hg3] at hfold
                  cases hl : lookupMap (slotMap r .g2) (colOf b2) (colOf b3) with
                  | none =>
                    rw [hl, foldl_step_failed rfl] at hfold
                    exact absurd hfold (by simp)
                  | some c =>
                    rw [hl] at hfold
                    exact Consumes.ss2 (Glyph.two hg2 hg3 hb2 hl)
                      (ih rest3 (by omega) _ _ hfold)
                · rw [if_neg hg3, foldl_step_failed rfl] at hfold
                  exact absurd hfold (by simp)
            · have hb2' : (mapOf (slotMap r .g2)).byte2 = false := by simpa using hb2
              cases hl : lookupMap (slotMap r .g2) 0 (colOf b2) with
              | none =>
                rw [decodeGlyph_one_none' hb2' hl, foldl_step_failed rfl] at hfold
                exact absurd hfold (by simp)
              | some c =>
                rw [decodeGlyph_one_some' hb2' hl] at hfold
                exact Consumes.ss2 (Glyph.one hg2 hb2' hl)
                  (ih rest2 (by omega) _ _ hfold)
          · rw [if_neg hg2, foldl_step_failed rfl] at hfold
            exact absurd hfold (by simp)
      case ss3 =>
        have hb := classify_inv_ss3 hc
        subst hb
        rw [step_ss3_b] at hfold
        cases rest with
        | nil => exact absurd hfold (by simp)
        | cons b2 rest2 =>
          simp only [List.length_cons] at hlen
          rw [List.foldl_cons, step_shifted_b] at hfold
          by_cases hg2 : isGraphic b2
          · rw [if_pos hg2] at hfold
            by_cases hb2 : (mapOf (slotMap r .g3)).byte2
            · rw [decodeGlyph_two' hb2] at hfold
              cases rest2 with
              | nil => exact absurd hfold (by simp)
              | cons b3 rest3 =>
                simp only [List.length_cons] at hlen
                rw [List.foldl_cons, step_second_b] at hfold
                by_cases hg3 : isGraphic b3
                · rw [if_pos hg3] at hfold
                  cases hl : lookupMap (slotMap r .g3) (colOf b2) (colOf b3) with
                  | none =>
                    rw [hl, foldl_step_failed rfl] at hfold
                    exact absurd hfold (by simp)
                  | some c =>
                    rw [hl] at hfold
                    exact Consumes.ss3 (Glyph.two hg2 hg3 hb2 hl)
                      (ih rest3 (by omega) _ _ hfold)
                · rw [if_neg hg3, foldl_step_failed rfl] at hfold
                  exact absurd hfold (by simp)
            · have hb2' : (mapOf (slotMap r .g3)).byte2 = false := by simpa using hb2
              cases hl : lookupMap (slotMap r .g3) 0 (colOf b2) with
              | none =>
                rw [decodeGlyph_one_none' hb2' hl, foldl_step_failed rfl] at hfold
                exact absurd hfold (by simp)
              | some c =>
                rw [decodeGlyph_one_some' hb2' hl] at hfold
                exact Consumes.ss3 (Glyph.one hg2 hb2' hl)
                  (ih rest2 (by omega) _ _ hfold)
          · rw [if_neg hg2, foldl_step_failed rfl] at hfold
            exact absurd hfold (by simp)
      case gl =>
        obtain ⟨hgl1, hgl2⟩ := classify_inv_gl hc
        rw [step_cls_gl hc] at hfold
        by_cases hb2 : (mapOf (slotMap r r.gl)).byte2
        · rw [decodeGlyph_two' hb2] at hfold
          cases rest with
          | nil => exact absurd hfold (by simp)
          | cons b2 rest2 =>
            simp only [List.length_cons] at hlen
            rw [List.foldl_cons, step_second_b] at hfold
            by_cases hg2 : isGraphic b2
            · rw [if_pos hg2] at hfold
              cases hl : lookupMap (slotMap r r.gl) (colOf b) (colOf b2) with
              | none =>
                rw [hl, foldl_step_failed rfl] at hfold
                exact absurd hfold (by simp)
              | some c =>
                rw [hl] at hfold
                exact Consumes.chrGL hgl1 hgl2
                  (Glyph.two (Or.inl ⟨hgl1, hgl2⟩) hg2 hb2 hl)
                  (ih rest2 (by omega) _ _ hfold)
            · rw [if_neg hg2, foldl_step_failed rfl] at hfold
              exact absurd hfold (by simp)
        · have hb2' : (mapOf (slotMap r r.gl)).byte2 = false := by simpa using hb2
          cases hl : lookupMap (slotMap r r.gl) 0 (colOf b) with
          | none =>
            rw [decodeGlyph_one_none' hb2' hl, foldl_step_failed rfl] at hfold
            exact absurd hfold (by simp)
          | some c =>
            rw [decodeGlyph_one_some' hb2' hl] at hfold
            exact Consumes.chrGL hgl1 hgl2
              (Glyph.one (Or.inl ⟨hgl1, hgl2⟩) hb2' hl)
              (ih rest (by omega) _ _ hfold)
      case gr =>
        obtain ⟨hgr1, hgr2⟩ := classify_inv_gr hc
        rw [step_cls_gr hc] at hfold
        by_cases hb2 : (mapOf (slotMap r r.gr)).byte2
        · rw [decodeGlyph_two' hb2] at hfold
          cases rest with
          | nil => exact absurd hfold (by simp)
          | cons b2 rest2 =>
            simp only [List.length_cons] at hlen
            rw [List.foldl_cons, step_second_b] at hfold
            by_cases hg2 : isGraphic b2
            · rw [if_pos hg2] at hfold
              cases hl : lookupMap (slotMap r r.gr) (colOf b) (colOf b2) with
              | none =>
                rw [hl, foldl_step_failed rfl] at hfold
                exact absurd hfold (by simp)
              | some c =>
                rw [hl] at hfold
                exact Consumes.chrGR hgr1 hgr2
                  (Glyph.two (Or.inr ⟨hgr1, hgr2⟩) hg2 hb2 hl)
                  (ih rest2 (by omega) _ _ hfold)
            · rw [if_neg hg2, foldl_step_failed rfl] at hfold
              exact absurd hfold (by simp)
        · have hb2' : (mapOf (slotMap r r.gr)).byte2 = false := by simpa using hb2
          cases hl : lookupMap (slotMap r r.gr) 0 (colOf b) with
          | none =>
            rw [decodeGlyph_one_none' hb2' hl, foldl_step_failed rfl] at hfold
            exact absurd hfold (by simp)
          | some c =>
            rw [decodeGlyph_one_some' hb2' hl] at hfold
            exact Consumes.chrGR hgr1 hgr2
              (Glyph.one (Or.inr ⟨hgr1, hgr2⟩) hb2' hl)
              (ih rest (by omega) _ _ hfold)
      case mac body =>
        have hb := classify_mac_inv hc
        rw [step_mac hb] at hfold
        simp only [runMac] at hfold
        by_cases him : (List.foldl stepNM ⟨r, Mode.normal, acc⟩ body).mode = Mode.normal
        · rw [if_pos him] at hfold
          have hcanon : (List.foldl stepNM ⟨r, Mode.normal, ([] : List Nat)⟩ body).mode =
              Mode.normal := by
            have hsim := foldl_stepNM_sim body
              (s := ⟨r, Mode.normal, acc⟩) (t := ⟨r, Mode.normal, []⟩) ⟨rfl, rfl⟩
            rw [← hsim.2]
            exact him
          exact Consumes.mac hb hcanon (ih rest (by omega) r _ hfold)
        · rw [if_neg him, foldl_step_failed rfl] at hfold
          exact absurd hfold (by simp)
      case bad =>
        rw [step_cls_bad hc, foldl_step_failed rfl] at hfold
        exact absurd hfold (by simp)

/-- The representability walk is independent of the register state it
tracks: representability only depends on the table registry. -/
theorem canEncodeFrom_indep : ∀ (chars : List Nat) (r1 r2 : Registers),
    canEncodeFrom r1 chars = canEncodeFrom r2 chars := by
  intro chars
  induction chars with
  | nil => intro r1 r2; rfl
  | cons c rest ih =>
    intro r1 r2
    unfold canEncodeFrom
    cases hf : findChar c with
    | none => rfl
    | some mrc =>
      obtain ⟨m, row, col⟩ := mrc
      exact ih _ _

/-- Any slot invocation resolves to one of the four register slots. -/
theorem slotMap_cases (r : Registers) (g : GIdx) :
    slotMap r g = r.g0 ∨ slotMap r g = r.g1 ∨ slotMap r g = r.g2 ∨
      slotMap r g = r.g3 := by
  cases g
  · exact Or.inl rfl
  · exact Or.inr (Or.inl rfl)
  · exact Or.inr (Or.inr (Or.inl rfl))
  · exact Or.inr (Or.inr (Or.inr rfl))

/-- The decoder state reached from the default register state after
processing a byte prefix — "after initialization and after each processed
byte" ranges over all values of `data`. -/
def decoderState (acc data : List Nat) : DState :=
  List.foldl step ⟨initRegs, Mode.normal, acc⟩ data

/-- Folding the bytes of one glyph from the single-shifted state resolves
it through the shift register's map and expires the shift. -/
theorem fold_shifted_glyph {r : Registers} {g : GIdx} {m : CharMapId}
    {bs : List Nat} {c : Nat} {o : List Nat}
    (hm : slotMap r g = m) (hg : Glyph m bs c) :
    List.foldl step ⟨r, Mode.shifted g, o⟩ bs = ⟨r, Mode.normal, o ++ [c]⟩ := by
  cases hg with
  | one hgr hb2 hc =>
    simp only [List.foldl_cons, List.foldl_nil]
    exact step_shifted1 hgr hm hb2 hc
  | two hgr hgr2 hb2 hc =>
    simp only [List.foldl_cons, List.foldl_nil]
    rw [step_shifted2 hgr hm hb2, step_second hgr2 hc]

/-- Folding the bytes of one GL glyph from the ground state resolves it
through the invoked map. -/
theorem fold_gl_glyph {r : Registers} {m : CharMapId} {b : Nat}
    {bs : List Nat} {c : Nat} {o : List Nat}
    (h1 : 0x21 ≤ b) (h2 : b ≤ 0x7E)
    (hm : slotMap r r.gl = m) (hg : Glyph m (b :: bs) c) :
    List.foldl step ⟨r, Mode.normal, o⟩ (b :: bs) = ⟨r, Mode.normal, o ++ [c]⟩ := by
  cases hg with
  | one hgr hb2 hc =>
    simp only [List.foldl_cons, List.foldl_nil]
    exact step_gl1 h1 h2 hm hb2 hc
  | two hgr hgr2 hb2 hc =>
    simp only [List.foldl_cons, List.foldl_nil]
    rw [step_gl2 h1 h2 hm hb2, step_second hgr2 hc]

/-- From the single-shifted state: exactly one glyph goes through the
shift register, the following GL glyph through the (restored) GL. -/
theorem fold_ss_glyphs {r : Registers} {g : GIdx} {bs1 bs2 : List Nat}
    {b2 c1 c2 : Nat} {acc : List Nat}
    (hg1 : Glyph (slotMap r g) bs1 c1)
    (hb2l : 0x21 ≤ b2) (hb2r : b2 ≤ 0x7E)
    (hg2 : Glyph (slotMap r r.gl) (b2 :: bs2) c2) :
    List.foldl step ⟨r, Mode.shifted g, acc⟩ (bs1 ++ b2 :: bs2) =
      ⟨r, Mode.normal, acc ++ [c1, c2]⟩ := by
  rw [List.foldl_append, fold_shifted_glyph rfl hg1,
    fold_gl_glyph hb2l hb2r rfl hg2]
  simp

/-- Every byte of a macro body is a graphic byte. -/
theorem macBody_graphic {b : Nat} {body : List Nat} (h : macBody b = some body) :
    ∀ x ∈ body, isGraphic x := by
  rcases macBody_cases h with ⟨_, rfl⟩ | ⟨_, rfl⟩ <;>
    · intro x hx
      simp only [List.mem_cons, List.not_mem_nil, or_false] at hx
      rcases hx with rfl | rfl
      · first
        | exact Or.inl ⟨by omega, by omega⟩
        | exact Or.inr ⟨by omega, by omega⟩
      · first
        | exact Or.inl ⟨by omega, by omega⟩
        | exact Or.inr ⟨by omega, by omega⟩

end ARIB

namespace TsExit

/-- The `ExitContext` singleton's payload: the registered termination
functions, as (function, parameter) identifiers, in `push_back` order.
Embeds `std::vector<ExitHandler> _handlers`. -/
structure ExitContext where
  handlers : List (Nat × Nat)
deriving DecidableEq, Repr

/-- Global state of `tsSingleton.cpp`: `_instance` (null or the singleton)
and whether `_once_flag` has been consumed. -/
structure SingState where
  inst : Option ExitContext
  onceDone : Bool
deriving DecidableEq, Repr

/-- State before any registration. -/
def sinit : SingState := ⟨none, false⟩

/-- `ExitContext::Instance()`: double-checked lazy creation.  If the
instance is null and the once-flag is still unconsumed, create it (and
register `_cleanup` with `std::atexit`); if the instance is null but the
once-flag is already consumed, `call_once` does nothing and the returned
reference dereferences a null pointer — modelled as `none`. -/
def Instance (s : SingState) : Option SingState :=
  match s.inst with
  | some _ => some s
  | none =>
    if s.onceDone then none
    else some ⟨some ⟨[]⟩, true⟩

/-- `ts::atexit(func, param)`: `ExitContext::Instance().add(func, param)`;
`add` appends to `_handlers`.  `none` models the undefined behaviour of
dereferencing a null `_instance`. -/
def tsAtexit (s : SingState) (f p : Nat) : Option SingState :=
  (Instance s).map fun s' =>
    { s' with inst := s'.inst.map fun c => ⟨c.handlers ++ [(f, p)]⟩ }

/-- `ExitContext::_cleanup()`: if the instance exists, call every
registered handler in reverse registration order (`rbegin..rend`), then
delete the instance and reset the pointer to null; the once-flag is left
consumed.  Returns the sequence of (func, param) invocations. -/
def cleanup (s : SingState) : List (Nat × Nat) × SingState :=
  match s.inst with
  | none => ([], s)
  | some c => (c.handlers.reverse, { s with inst := none })

/-- Run a whole sequence of `ts::atexit` registrations from the pristine
state. -/
def registerAll (regs : List (Nat × Nat)) : Option SingState :=
  regs.foldl (fun acc fp => acc.bind fun s => tsAtexit s fp.1 fp.2) (some sinit)

/-- Once the singleton exists, each further registration appends to the
handler list. -/
theorem registerAll_inv : ∀ (regs hs : List (Nat × Nat)),
    List.foldl (fun acc fp => acc.bind fun s => tsAtexit s fp.1 fp.2)
      (some (⟨some ⟨hs⟩, true⟩ : SingState)) regs =
      some ⟨some ⟨hs ++ regs⟩, true⟩ := by
  intro regs
  induction regs with
  | nil => intro hs; simp
  | cons fp rest ih =>
    intro hs
    simp only [List.foldl_cons]
    rw [show ((some (⟨some ⟨hs⟩, true⟩ : SingState)).bind
        fun s => tsAtexit s fp.1 fp.2) = some ⟨some ⟨hs ++ [fp]⟩, true⟩ from rfl]
    rw [ih (hs ++ [fp])]
    simp

end TsExit

/-! The claims, settled against the embedding above. -/

/-- C1: for every Unicode text fully representable in the supported maps
(`canEncode` true on the whole text), encoding the text with `encode`
(with a buffer large enough for the whole text, 6 bytes per character
suffices) consumes the whole text, and decoding the produced byte buffer
with `decode` yields exactly the original text, successfully. -/
theorem c1_roundtrip (text : List Nat)
    (h : ARIB.canEncode text 0 text.length = true) :
    (ARIB.encode (6 * text.length) text 0 text.length).2 = text.length ∧
    ARIB.decode [] (ARIB.encode (6 * text.length) text 0 text.length).1 =
      (text, true) := by
  have hsub : ARIB.subrange text 0 text.length = text := by
    simp [ARIB.subrange]
  have h' : ARIB.canEncodeFrom ARIB.initRegs text = true := by
    unfold ARIB.canEncode at h
    rwa [hsub] at h
  have hcons : (ARIB.encodeLoop ARIB.initRegs (6 * text.length) text).2 = text.length :=
    ARIB.encode_consumes text ARIB.initRegs (6 * text.length) h' (le_refl _)
  obtain ⟨rf, hrf⟩ := ARIB.fold_encodeLoop text ARIB.initRegs [] (6 * text.length)
  rw [hcons] at hrf
  constructor
  · show (ARIB.encodeLoop ARIB.initRegs (6 * text.length)
      (ARIB.subrange text 0 text.length)).2 = text.length
    rw [hsub]
    exact hcons
  · show ARIB.decodeOn ARIB.initRegs []
      (ARIB.encodeLoop ARIB.initRegs (6 * text.length)
        (ARIB.subrange text 0 text.length)).1 = (text, true)
    rw [hsub]
    simp only [ARIB.decodeOn]
    rw [hrf]
    simp [List.take_length]

/-- Witness for C1 at the concrete text "AB". -/
theorem c1_roundtrip_witness :
    (ARIB.encode (6 * ([65, 66] : List Nat).length) [65, 66] 0
        ([65, 66] : List Nat).length).2 = ([65, 66] : List Nat).length ∧
    ARIB.decode [] (ARIB.encode (6 * ([65, 66] : List Nat).length) [65, 66] 0
        ([65, 66] : List Nat).length).1 = ([65, 66], true) :=
  c1_roundtrip [65, 66] (by decide)

/-- C2: `decode` returns true exactly when every byte of the buffer is
consumed without a fatal error (the big-step relation `Consumes` from the
default register state), and the empty input decodes to success while
appending nothing to the accumulator. -/
theorem c2_success_iff :
    (∀ acc data : List Nat,
      (ARIB.decode acc data).2 = true ↔ ARIB.Consumes ARIB.initRegs data) ∧
    (∀ acc : List Nat, ARIB.decode acc [] = (acc, true)) := by
  constructor
  · intro acc data
    constructor
    · intro h
      exact ARIB.consumes_complete data.length data (le_refl _) ARIB.initRegs acc
        (of_decide_eq_true h)
    · intro h
      exact decide_eq_true (ARIB.consumes_sound h acc)
  · intro acc
    rfl

/-- C3: decode only appends: for every register state, initial accumulator
content and input buffer, the initial content is a prefix of the final
accumulator content, whether the decode succeeds or fails. -/
theorem c3_decode_appends :
    (∀ acc data : List Nat, ∃ t, (ARIB.decode acc data).1 = acc ++ t) ∧
    (∀ (r : ARIB.Registers) (acc data : List Nat),
      ∃ t, (ARIB.decodeOn r acc data).1 = acc ++ t) := by
  constructor
  · intro acc data
    obtain ⟨t, ht⟩ := ARIB.foldl_step_appends data ⟨ARIB.initRegs, ARIB.Mode.normal, acc⟩
    exact ⟨t, ht⟩
  · intro r acc data
    obtain ⟨t, ht⟩ := ARIB.foldl_step_appends data ⟨r, ARIB.Mode.normal, acc⟩
    exact ⟨t, ht⟩

/-- C4: a single shift (SS2 = 0x19 or SS3 = 0x1D) decodes exactly one
character through G2 (respectively G3) — whether a 1-byte or a 2-byte
glyph — after which GL is restored to the locked GL: the next character
decodes through the locked GL's map, not G2/G3, so the shift never
persists. -/
theorem c4_single_shift (r : ARIB.Registers) (acc : List Nat) (sb : Nat)
    (g : ARIB.GIdx)
    (hshift : (sb = 0x19 ∧ g = ARIB.GIdx.g2) ∨ (sb = 0x1D ∧ g = ARIB.GIdx.g3))
    (bs1 bs2 : List Nat) (b2 c1 c2 : Nat)
    (hg1 : ARIB.Glyph (ARIB.slotMap r g) bs1 c1)
    (hlock : r.lockedGl = r.gl)
    (hb2l : 0x21 ≤ b2) (hb2r : b2 ≤ 0x7E)
    (hg2 : ARIB.Glyph (ARIB.slotMap r r.lockedGl) (b2 :: bs2) c2) :
    ARIB.decodeOn r acc (sb :: bs1 ++ b2 :: bs2) = (acc ++ [c1, c2], true) := by
  rw [hlock] at hg2
  have hfold : List.foldl ARIB.step ⟨r, ARIB.Mode.normal, acc⟩
      (sb :: bs1 ++ b2 :: bs2) = ⟨r, ARIB.Mode.normal, acc ++ [c1, c2]⟩ := by
    rcases hshift with ⟨rfl, rfl⟩ | ⟨rfl, rfl⟩
    · simp only [List.cons_append, List.foldl_cons, ARIB.step_ss2_b]
      exact ARIB.fold_ss_glyphs hg1 hb2l hb2r hg2
    · simp only [List.cons_append, List.foldl_cons, ARIB.step_ss3_b]
      exact ARIB.fold_ss_glyphs hg1 hb2l hb2r hg2
  simp only [ARIB.decodeOn, hfold]
  rfl

/-- Witness for C4: SS3 then a 2-byte kanji glyph through G3, then 'A'
through the locked alphanumeric GL. -/
theorem c4_single_shift_witness :
    ARIB.decodeOn ⟨.alphanumeric, .katakana, .hiragana, .kanjiStd, .g0, .g1, .g0⟩
      [] (0x1D :: [0x21, 0x21] ++ 0x41 :: []) = ([] ++ [0x4E00, 0x41], true) :=
  c4_single_shift ⟨.alphanumeric, .katakana, .hiragana, .kanjiStd, .g0, .g1, .g0⟩
    [] 0x1D .g3 (Or.inr ⟨rfl, rfl⟩) [0x21, 0x21] [] 0x41 0x4E00 0x41
    (ARIB.Glyph.two (by decide) (by decide) (by decide) (by decide))
    rfl (by decide) (by decide)
    (ARIB.Glyph.one (by decide) (by decide) (by decide))

/-- C5: in every state reachable by the decoder (after initialization and
after each processed byte), the GL, GR and lockedGL invocations each
resolve to one of the four register slots G0..G3; in this embedding the
invocations are slot references, so they are never dangling. -/
theorem c5_register_alias (acc data : List Nat) :
    (ARIB.slotMap (ARIB.decoderState acc data).regs (ARIB.decoderState acc data).regs.gl =
        (ARIB.decoderState acc data).regs.g0 ∨
     ARIB.slotMap (ARIB.decoderState acc data).regs (ARIB.decoderState acc data).regs.gl =
        (ARIB.decoderState acc data).regs.g1 ∨
     ARIB.slotMap (ARIB.decoderState acc data).regs (ARIB.decoderState acc data).regs.gl =
        (ARIB.decoderState acc data).regs.g2 ∨
     ARIB.slotMap (ARIB.decoderState acc data).regs (ARIB.decoderState acc data).regs.gl =
        (ARIB.decoderState acc data).regs.g3) ∧
    (ARIB.slotMap (ARIB.decoderState acc data).regs (ARIB.decoderState acc data).regs.gr =
        (ARIB.decoderState acc data).regs.g0 ∨
     ARIB.slotMap (ARIB.decoderState acc data).regs (ARIB.decoderState acc data).regs.gr =
        (ARIB.decoderState acc data).regs.g1 ∨
     ARIB.slotMap (ARIB.decoderState acc data).regs (ARIB.decoderState acc data).regs.gr =
        (ARIB.decoderState acc data).regs.g2 ∨
     ARIB.slotMap (ARIB.decoderState acc data).regs (ARIB.decoderState acc data).regs.gr =
        (ARIB.decoderState acc data).regs.g3) ∧
    (ARIB.slotMap (ARIB.decoderState acc data).regs
        (ARIB.decoderState acc data).regs.lockedGl = (ARIB.decoderState acc data).regs.g0 ∨
     ARIB.slotMap (ARIB.decoderState acc data).regs
        (ARIB.decoderState acc data).regs.lockedGl = (ARIB.decoderState acc data).regs.g1 ∨
     ARIB.slotMap (ARIB.decoderState acc data).regs
        (ARIB.decoderState acc data).regs.lockedGl = (ARIB.decoderState acc data).regs.g2 ∨
     ARIB.slotMap (ARIB.decoderState acc data).regs
        (ARIB.decoderState acc data).regs.lockedGl = (ARIB.decoderState acc data).regs.g3) :=
  ⟨ARIB.slotMap_cases (ARIB.decoderState acc data).regs (ARIB.decoderState acc data).regs.gl,
   ARIB.slotMap_cases (ARIB.decoderState acc data).regs (ARIB.decoderState acc data).regs.gr,
   ARIB.slotMap_cases (ARIB.decoderState acc data).regs
     (ARIB.decoderState acc data).regs.lockedGl⟩

/-- C6: decode and encode are total functions of their input with work and
output linear in the input length: decoding appends at most 2 code points
per input byte (macro expansion included), and encoding consumes at most
`count` characters and never writes more than the remaining buffer
space. -/
theorem c6_bounded :
    (∀ (r : ARIB.Registers) (acc data : List Nat),
      (ARIB.decodeOn r acc data).1.length ≤ acc.length + 2 * data.length) ∧
    (∀ (r : ARIB.Registers) (budget : Nat) (chars : List Nat),
      (ARIB.encodeLoop r budget chars).2 ≤ chars.length) ∧
    (∀ (r : ARIB.Registers) (budget : Nat) (chars : List Nat),
      (ARIB.encodeLoop r budget chars).1.length ≤ budget) := by
  refine ⟨?_, ?_, ?_⟩
  · intro r acc data
    have := ARIB.foldl_bound ARIB.step_bound data ⟨r, ARIB.Mode.normal, acc⟩
    simpa [ARIB.decodeOn] using this
  · intro r budget chars
    exact ARIB.encodeLoop_consumed_le chars r budget
  · intro r budget chars
    exact ARIB.encodeLoop_bytes_le chars r budget

/-- C7: `canEncode` is a pure query: two calls with the same arguments
return the same boolean, and the verdict does not depend on any register
state (the only state the walk tracks), so no caller-visible state can
influence or be influenced by it. -/
theorem c7_canEncode_pure :
    (∀ (str : List Nat) (start count : Nat),
      ARIB.canEncode str start count = ARIB.canEncode str start count) ∧
    (∀ (r1 r2 : ARIB.Registers) (chars : List Nat),
      ARIB.canEncodeFrom r1 chars = ARIB.canEncodeFrom r2 chars) :=
  ⟨fun _ _ _ => rfl, fun r1 r2 chars => ARIB.canEncodeFrom_indep chars r1 r2⟩

/-- C8: a control byte mapped to a macro decodes exactly as if its fixed
byte sequence were inlined at that point, in the enclosing call's current
register state; and if the macro body itself fails to decode, the
enclosing decode returns false. -/
theorem c8_mac_inline (r : ARIB.Registers) (acc rest : List Nat) (b : Nat)
    (body : List Nat) (h : ARIB.macBody b = some body) :
    ARIB.decodeOn r acc (b :: rest) = ARIB.decodeOn r acc (body ++ rest) ∧
    ((ARIB.decodeOn r acc body).2 = false →
      (ARIB.decodeOn r acc (b :: rest)).2 = false) := by
  have hfold := ARIB.fold_mac_inline h r acc rest
  have hgraph := ARIB.macBody_graphic h
  constructor
  · simp only [ARIB.decodeOn]
    rw [hfold]
  · intro hfail
    have hfail' : decide ((List.foldl ARIB.step ⟨r, ARIB.Mode.normal, acc⟩ body).mode =
        ARIB.Mode.normal) = false := hfail
    have hnot := of_decide_eq_false hfail'
    rw [ARIB.foldl_step_eq_stepNM hgraph] at hnot
    rcases (ARIB.macroBody_run h r acc).2 with hm | hm
    · exact absurd hm hnot
    · show decide ((List.foldl ARIB.step ⟨r, ARIB.Mode.normal, acc⟩
        (b :: rest)).mode = ARIB.Mode.normal) = false
      rw [hfold, List.foldl_append, ARIB.foldl_step_eq_stepNM hgraph,
        ARIB.foldl_step_failed hm, hm]
      rfl

/-- Witness for C8 at the macro control byte 0x95 from the default state. -/
theorem c8_mac_inline_witness :
    ARIB.decodeOn ARIB.initRegs [] (0x95 :: []) =
      ARIB.decodeOn ARIB.initRegs [] ([0x41, 0x42] ++ []) ∧
    ((ARIB.decodeOn ARIB.initRegs [] [0x41, 0x42]).2 = false →
      (ARIB.decodeOn ARIB.initRegs [] (0x95 :: [])).2 = false) :=
  c8_mac_inline ARIB.initRegs [] [] 0x95 [0x41, 0x42] (by decide)

/-- C9: for every finite sequence of `ts::atexit` registrations from a
pristine process state, cleanup at process exit invokes exactly the
registered (function, parameter) pairs, in reverse registration order, and
a second cleanup invokes nothing (no finalizer runs twice). -/
theorem c9_atexit_reverse :
    ∀ regs : List (Nat × Nat), ∃ s : TsExit.SingState,
      TsExit.registerAll regs = some s ∧
      (TsExit.cleanup s).1 = regs.reverse ∧
      (TsExit.cleanup (TsExit.cleanup s).2).1 = [] := by
  intro regs
  cases regs with
  | nil => exact ⟨TsExit.sinit, rfl, rfl, rfl⟩
  | cons fp rest =>
    refine ⟨⟨some ⟨fp :: rest⟩, true⟩, ?_, rfl, rfl⟩
    show List.foldl _ (some TsExit.sinit) (fp :: rest) = _
    rw [List.foldl_cons]
    rw [show ((some TsExit.sinit).bind fun s => TsExit.tsAtexit s fp.1 fp.2) =
      some (⟨some ⟨[fp]⟩, true⟩ : TsExit.SingState) from rfl]
    rw [TsExit.registerAll_inv rest [fp]]
    rfl

/-- C10: after the process-exit cleanup has run, the singleton pointer is
null while the once-flag stays consumed, so a subsequent `ts::atexit`
dereferences a null pointer (modelled as `none`): `ts::atexit` is only
safe before cleanup. -/
theorem c10_atexit_after_cleanup (s : TsExit.SingState) (f p : Nat)
    (h : s.onceDone = true) :
    (TsExit.cleanup s).2.inst = none ∧
    (TsExit.cleanup s).2.onceDone = true ∧
    TsExit.tsAtexit (TsExit.cleanup s).2 f p = none := by
  obtain ⟨inst, once⟩ := s
  dsimp only at h
  subst h
  cases inst with
  | none => exact ⟨rfl, rfl, rfl⟩
  | some c => exact ⟨rfl, rfl, rfl⟩

/-- Witness for C10 after one registration. -/
theorem c10_atexit_after_cleanup_witness :
    (TsExit.cleanup ⟨some ⟨[(1, 2)]⟩, true⟩).2.inst = none ∧
    (TsExit.cleanup (⟨some ⟨[(1, 2)]⟩, true⟩ : TsExit.SingState)).2.onceDone = true ∧
    TsExit.tsAtexit (TsExit.cleanup ⟨some ⟨[(1, 2)]⟩, true⟩).2 0 0 = none :=
  c10_atexit_after_cleanup ⟨some ⟨[(1, 2)]⟩, true⟩ 0 0 rfl
